import Mathlib

/-!
# sherpa_41: style resolution and canvas rasterisation

A shallow embedding of `src/css.cpp` and `src/renderer/canvas.cpp`, together
with a model of the style-resolution engine, whose source file `style.cpp` is
not among the available sources (only its test-suite `tests/style.cpp` is).

Conventions.

* `uint64_t` values are natural numbers; every place where the C++ code can
  wrap is reduced modulo `U64 = 2 ^ 64` explicitly.
* Undefined behaviour (an out-of-range floating-point to integer conversion, an
  out-of-bounds vector access) and thrown exceptions are the `none` result of an
  `Option`-valued function.
* A `double` is a NaN, an infinity, or a signed dyadic rational.
-/

/-! ## Machine numbers -/

/-- The modulus of `uint64_t` / `size_t` arithmetic. -/
def U64 : Nat := 2 ^ 64

/-- A `double`: a NaN, an infinity with its sign, or a finite value with sign
bit `negative` and magnitude `m / 2 ^ k`. Every finite IEEE-754 double is a
dyadic rational and so has this form (the two zeros are `fin false 0 k` and
`fin true 0 k`). -/
inductive Dbl where
  | nan
  | inf (negative : Bool)
  | fin (negative : Bool) (m : Nat) (k : Nat)
  deriving DecidableEq, Repr

namespace Dbl

/-- The double with the integer value `n`. -/
def ofNat (n : Nat) : Dbl := fin false n 0

/-- The double with the integer value `-n`. -/
def negOfNat (n : Nat) : Dbl := fin true n 0

/-- The magnitude of a finite double with its fractional part discarded. -/
def truncMag (m k : Nat) : Nat := m / 2 ^ k

/-- The value is strictly below zero (`x < 0` in C++; false for NaN and for both zeros). -/
def isNegative : Dbl → Bool
  | nan => false
  | inf negative => negative
  | fin negative m _ => negative && decide (0 < m)

/-- The comparison `x >= n` of a double against an unsigned integer (false for NaN). -/
def geNat : Dbl → Nat → Bool
  | nan, _ => false
  | inf negative, _ => !negative
  | fin negative m k, n => if negative then decide (m = 0 ∧ n = 0) else decide (n * 2 ^ k ≤ m)

/-- The conversion `static_cast<uint64_t>(x)`. The fractional part is discarded;
the behaviour is undefined (`none`) when the truncated value is not
representable in `uint64_t`, which is the case for NaN, the infinities, every
value `<= -1` and every value `>= 2 ^ 64`. -/
def toU64 : Dbl → Option Nat
  | nan => none
  | inf _ => none
  | fin negative m k =>
    if negative then
      if truncMag m k = 0 then some 0 else none
    else
      if truncMag m k < U64 then some (truncMag m k) else none

/-- The sum of two doubles holding integers of magnitude below `2 ^ 52`, which
IEEE-754 addition computes exactly. On other arguments the function is not
meant to be used and yields NaN or the exact integer sum. It serves concrete
evaluations only: `Canvas.render` takes the addition as a parameter. -/
def addInt : Dbl → Dbl → Dbl
  | fin na a 0, fin nb b 0 =>
    if na = nb then fin na (a + b) 0
    else if b < a then fin na (a - b) 0
    else if a < b then fin nb (b - a) 0
    else fin false 0 0
  | _, _ => nan

/-- The magnitude lies in the range of `double`: a finite value is below
`2 ^ 1024` in magnitude. -/
def inRange : Dbl → Bool
  | fin _ m k => decide (m < 2 ^ 1024 * 2 ^ k)
  | _ => true

end Dbl

/-! ## `css.cpp`: values -/

namespace CSS

/-- A text value (`CSS::TextValue`). -/
structure TextValue where
  value : String
  deriving DecidableEq, Repr

/-- `CSS::TextValue::print`: the stored text, verbatim. -/
def TextValue.print (v : TextValue) : String := v.value

/-- Modelled from the spec: the unit enumeration `CSS::Unit` is declared in the
header `css.hpp`, which is not among the available sources. The spec fixes it as the
six-valued enumeration whose ordinals index `["px","em","rem","vw","vh","%"]`. -/
inductive Unit where
  | px | em | rem | vw | vh | percent
  deriving DecidableEq, Repr

/-- The ordinal of a unit tag, used by `UnitValue::print` as a vector index. -/
def Unit.ordinal : Unit → Nat
  | .px => 0 | .em => 1 | .rem => 2 | .vw => 3 | .vh => 4 | .percent => 5

/-- `CSS::UnitRaw`: string forms of the units. -/
def UnitRaw : List String := ["px", "em", "rem", "vw", "vh", "%"]

/-- A numeric value with a unit (`CSS::UnitValue`). -/
structure UnitValue where
  value : Dbl
  unit : Unit
  deriving DecidableEq, Repr

/-- A colour value (`CSS::ColorValue`): four `uint8_t` channels. -/
structure ColorValue where
  r : Fin 256
  g : Fin 256
  b : Fin 256
  a : Fin 256
  deriving DecidableEq, Repr

/-- Modelled from the spec: `ColorValue::channels()` is defined in the header
`css.hpp`, which is not among the available sources. The spec fixes the channel order as
R, G, B, A. -/
def ColorValue.channels (c : ColorValue) : List (Fin 256) := [c.r, c.g, c.b, c.a]

/-- `CSS::ColorValue::print`: `rgba(r, g, b, a)` with decimal channels
(`std::to_string` of the promoted integer). -/
def ColorValue.print (c : ColorValue) : String :=
  "rgba(" ++ Nat.repr c.r.val ++ ", " ++ Nat.repr c.g.val ++ ", " ++
    Nat.repr c.b.val ++ ", " ++ Nat.repr c.a.val ++ ")"

/-- The closed family of declaration values (`CSS::Value` and its three
subclasses). `clone()` is the identity on this representation. -/
inductive Value where
  | text (v : TextValue)
  | unit (v : UnitValue)
  | color (v : ColorValue)
  deriving DecidableEq, Repr

/-! ### Printing a unit value -/

/-- The position `std::string::npos`. -/
def npos : Nat := U64 - 1

/-- Rounding of the quotient `num / den` to the nearest integer, ties to even
(the rounding `printf` applies in the default rounding mode). -/
def roundHalfEven (num den : Nat) : Nat :=
  let q := num / den
  let r := num % den
  if 2 * r < den then q else if den < 2 * r then q + 1 else if q % 2 = 0 then q else q + 1

/-- Six fraction digits, zero-padded on the left. -/
def padFraction (frac : Nat) : List Char :=
  let ds := Nat.toDigits 10 frac
  List.replicate (6 - ds.length) '0' ++ ds

/-- `std::to_string(double)`, i.e. `printf("%f")`: an optional minus sign, the
integer part, a point and six fraction digits. The sign and payload of a NaN
are not modelled. -/
def to_string : Dbl → List Char
  | .nan => "nan".toList
  | .inf negative => (if negative then ['-'] else []) ++ "inf".toList
  | .fin negative m k =>
    let scaled := roundHalfEven (m * 10 ^ 6) (2 ^ k)
    (if negative then ['-'] else []) ++ Nat.toDigits 10 (scaled / 10 ^ 6) ++ ['.'] ++
      padFraction (scaled % 10 ^ 6)

/-- `std::string::find(c)`: the first position of `c`, or `npos`. -/
def find (val : List Char) (c : Char) : Nat :=
  if val.indexOf c < val.length then val.indexOf c else npos

/-- `std::string::find_last_not_of(c)`: the last position holding a character
other than `c`, or `npos`. -/
def find_last_not_of (val : List Char) (c : Char) : Nat :=
  match (val.reverse.dropWhile (fun d => d == c)).length with
  | 0 => npos
  | n + 1 => n

/-- `std::string::erase(index, npos)`: drops everything from `index` on; throws
(`none`) when `index` exceeds the length. -/
def erase (val : List Char) (index : Nat) : Option (List Char) :=
  if index ≤ val.length then some (val.take index) else none

/-- `CSS::UnitValue::print`. `none` stands for a thrown `std::out_of_range` or
an out-of-bounds read of `UnitRaw()`. -/
def UnitValue.print (v : UnitValue) : Option String :=
  let val := to_string v.value
  let offset := if find_last_not_of val '0' = find val '.' then 0 else 1
  match erase val ((find_last_not_of val '0' + offset) % U64), UnitRaw[v.unit.ordinal]? with
  | some val', some suffix => some (String.mk val' ++ suffix)
  | _, _ => none

/-- The virtual `print()` of a value. -/
def Value.print : Value → Option String
  | .text v => some v.print
  | .unit v => v.print
  | .color v => some v.print

/-- The fraction of a printed magnitude in the words of the spec: nothing when
the fraction digits `F` are all zeros, else the point followed by `F` without
its trailing zeros. -/
def strippedFraction (F : List Char) : List Char :=
  if F.all (fun c => c == '0') then [] else '.' :: F.rdropWhile (fun c => c == '0')

/-- The decimal numeral of a channel value `0 .. 255` in the words of the spec,
written out digit by digit: one, two or three decimal digits, none of them
leading zeros. -/
def decimalNumeral (n : Nat) : String :=
  if n < 10 then String.mk [Char.ofNat (48 + n)]
  else if n < 100 then String.mk [Char.ofNat (48 + n / 10), Char.ofNat (48 + n % 10)]
  else String.mk
    [Char.ofNat (48 + n / 100), Char.ofNat (48 + n / 10 % 10), Char.ofNat (48 + n % 10)]

/-! ## `css.cpp`: selectors, declarations, rules -/

/-- A selector (`CSS::Selector`): tag, id and class list. -/
structure Selector where
  tag : String
  id : String
  klass : List String
  deriving DecidableEq, Repr

/-- The specificity key (`CSS::Specificity`), compared lexicographically. -/
abbrev Specificity := Nat × Nat × Nat

/-- `CSS::Selector::specificity`:
`{id.empty() ? 0UL : 1, klass.size(), tag.empty() ? 0UL : 1}`. -/
def Selector.specificity (s : Selector) : Specificity :=
  (if s.id.isEmpty then 0 else 1, s.klass.length, if s.tag.isEmpty then 0 else 1)

/-- Strict lexicographic order on specificities. -/
def Specificity.lt (a b : Specificity) : Bool :=
  decide (a.1 < b.1) ||
    (decide (a.1 = b.1) &&
      (decide (a.2.1 < b.2.1) || (decide (a.2.1 = b.2.1) && decide (a.2.2 < b.2.2))))

/-- `CSS::Selector::print`: `tag#id.class1.class2`, or `*` for the empty selector. -/
def Selector.print (s : Selector) : String :=
  let res := s.tag ++ (if s.id.isEmpty then "" else "#" ++ s.id) ++
    s.klass.foldl (fun acc cl => acc ++ "." ++ cl) ""
  if res.isEmpty then "*" else res

/-- A declaration (`CSS::Declaration`): a property name bound to a value. -/
structure Declaration where
  name : String
  value : Value
  deriving DecidableEq, Repr

/-- A rule (`CSS::Rule`): the selectors it applies under, and its declarations
in source order. The specificity paired with each selector is
`Selector.specificity` of that selector. -/
structure Rule where
  selectors : List Selector
  declarations : List Declaration
  deriving DecidableEq, Repr

/-- A style sheet (`CSS::StyleSheet`): rules in source order. -/
abbrev StyleSheet := List Rule

end CSS

/-! ## Document tree (external collaborator) -/

namespace DOM

/-- Modelled from the spec: the document tree is produced by the HTML parser,
which is not among the available sources. Nodes are polymorphic over
`Element(tag, id, classes, attributes)`, `Text(content)` and `Comment(content)`,
each with an ordered sequence of child nodes. -/
inductive Node where
  | element (tag : String) (id : String) (classes : List String)
      (attributes : List (String × String)) (children : List Node)
  | text (content : String) (children : List Node)
  | comment (content : String) (children : List Node)

/-- The ordered children of a document node. -/
def Node.getChildren : Node → List Node
  | .element _ _ _ _ children => children
  | .text _ children => children
  | .comment _ children => children

/-- Whether the node is an element node. -/
def Node.isElement : Node → Bool
  | .element _ _ _ _ _ => true
  | _ => false

mutual
/-- Number of nodes of a document tree. -/
def Node.size : Node → Nat
  | .element _ _ _ _ children => 1 + Node.sizeList children
  | .text _ children => 1 + Node.sizeList children
  | .comment _ children => 1 + Node.sizeList children
/-- Number of nodes of a forest of document trees. -/
def Node.sizeList : List Node → Nat
  | [] => 0
  | c :: cs => c.size + Node.sizeList cs
end

/-- The node reached from a node by following child positions. -/
def Node.descend : Node → List Nat → Option Node
  | n, [] => some n
  | n, i :: path =>
    match n.getChildren[i]? with
    | none => none
    | some c => c.descend path

end DOM

/-! ## Style resolution engine -/

namespace Style

open CSS DOM

/-- Modelled from the spec: the property mapping of a styled node (`style.cpp`
is not among the available sources), from property name to value, at most one value per
name. -/
abbrev PropertyMap := String → Option Value

/-- The empty property mapping. -/
def PropertyMap.empty : PropertyMap := fun _ => none

/-- Writing `props[name] = value`: overwrites an earlier value of the same name. -/
def PropertyMap.set (m : PropertyMap) (name : String) (v : Value) : PropertyMap :=
  fun n => if n = name then some v else m n

/-- Modelled from the spec: `Style::StyledNode` is defined in `style.cpp`, which
is not among the available sources. A styled node owns a property mapping and an ordered
sequence of child styled nodes. -/
inductive StyledNode where
  | mk (props : PropertyMap) (children : List StyledNode)

/-- Modelled from the spec: `StyledNode::value(name)` returns the value stored
for the property name, or the absent indicator (`none`) if unset. -/
def StyledNode.value : StyledNode → String → Option Value
  | .mk props _, name => props name

/-- Modelled from the spec: `StyledNode::value_or(name, default)` returns the
stored value, or the caller-supplied default itself when the name is unset. -/
def StyledNode.value_or (n : StyledNode) (name : String) (default : Value) : Value :=
  match n.value name with
  | some v => v
  | none => default

/-- Modelled from the spec: `StyledNode::getChildren()` returns the child styled
nodes in document order. -/
def StyledNode.getChildren : StyledNode → List StyledNode
  | .mk _ children => children

mutual
/-- Number of nodes of a styled tree. -/
def StyledNode.size : StyledNode → Nat
  | .mk _ children => 1 + StyledNode.sizeList children
/-- Number of nodes of a forest of styled trees. -/
def StyledNode.sizeList : List StyledNode → Nat
  | [] => 0
  | c :: cs => c.size + StyledNode.sizeList cs
end

/-- The styled node reached from a styled node by following child positions. -/
def StyledNode.descend : StyledNode → List Nat → Option StyledNode
  | n, [] => some n
  | n, i :: path =>
    match n.getChildren[i]? with
    | none => none
    | some c => c.descend path

/-- Modelled from the spec: selector matching lives in `style.cpp`, which is not
among the available sources. A selector matches an element node iff (tag is empty or equals
the node's tag) and (id is empty or equals the node's id) and every class of the
selector is present among the node's classes. No selector matches a text or
comment node. -/
def selectorMatches (s : Selector) : Node → Bool
  | .element tag id classes _ _ =>
    (s.tag.isEmpty || s.tag == tag) && (s.id.isEmpty || s.id == id) &&
      s.klass.all (fun c => classes.contains c)
  | _ => false

/-- Modelled from the spec: a collected `(declaration, specificity,
source_index)` triple of step 1 of the resolution algorithm (`style.cpp` is not
among the available sources). -/
structure Matched where
  declaration : Declaration
  specificity : Specificity
  sourceIndex : Nat
  deriving DecidableEq, Repr

/-- Modelled from the spec, step 1 for one rule (`style.cpp` is not among
the available sources): the triples contributed by the selectors `ss` of the rule at position
`idx`, one per declaration for each selector that matches the node. -/
def collectSelectors (node : Node) (idx : Nat) (decls : List Declaration) :
    List Selector → List Matched
  | [] => []
  | s :: ss =>
    (if selectorMatches s node then decls.map (fun d => Matched.mk d s.specificity idx) else []) ++
      collectSelectors node idx decls ss

/-- Modelled from the spec, step 1 (`style.cpp` is not among the available
sources): every `(declaration, specificity, source_index)` triple from every
rule whose selector matches the node, where `source_index` is the position of
the declaration's rule in the style sheet. `idx` is the position of the first
rule of `rules`. -/
def collectFrom (node : Node) : Nat → List Rule → List Matched
  | _, [] => []
  | idx, r :: rs =>
    collectSelectors node idx r.declarations r.selectors ++ collectFrom node (idx + 1) rs

/-- Modelled from the spec: the order `(specificity, source_index)` of step 2
(`style.cpp` is not among the available sources), lexicographic. -/
def Matched.le (a b : Matched) : Bool :=
  Specificity.lt a.specificity b.specificity ||
    (decide (a.specificity = b.specificity) && decide (a.sourceIndex ≤ b.sourceIndex))

/-- Modelled from the spec, step 2 (`style.cpp` is not among the available sources):
insertion of a triple into an ascending list, before the first triple that is
not below it. -/
def insertMatched (a : Matched) : List Matched → List Matched
  | [] => [a]
  | b :: l => if a.le b then a :: b :: l else b :: insertMatched a l

/-- Modelled from the spec, step 2 (`style.cpp` is not among the available sources): sort
the triples ascending by `(specificity, source_index)`, lowest priority first.
Triples with equal keys keep their collection order. -/
def sortMatched : List Matched → List Matched
  | [] => []
  | a :: l => insertMatched a (sortMatched l)

/-- Modelled from the spec, step 3 (`style.cpp` is not among the available sources): apply
the triples in order into the property mapping, each later write overwriting an
earlier one of the same name. -/
def applyAll (l : List Matched) : PropertyMap :=
  l.foldl (fun m t => m.set t.declaration.name t.declaration.value) PropertyMap.empty

/-- Modelled from the spec: the property mapping of a node (`style.cpp` is not
among the available sources), steps 1 to 3 for an element node, the empty mapping (no
matching attempt) for a text or comment node. -/
def mapProps (css : StyleSheet) (node : Node) : PropertyMap :=
  if node.isElement then applyAll (sortMatched (collectFrom node 0 css)) else PropertyMap.empty

mutual
/-- Modelled from the spec: `resolve(document_root, stylesheet)`
(`Style::StyledNode::from` in the test-suite; `style.cpp` is not among
the available sources). Builds the styled node of a document node, then recurses into every
child in order (step 4). -/
def resolve (css : StyleSheet) : Node → StyledNode
  | .element tag id classes attributes children =>
    StyledNode.mk (mapProps css (.element tag id classes attributes children))
      (resolveChildren css children)
  | .text content children =>
    StyledNode.mk (mapProps css (.text content children)) (resolveChildren css children)
  | .comment content children =>
    StyledNode.mk (mapProps css (.comment content children)) (resolveChildren css children)
/-- The styled nodes of a list of sibling document nodes, in order. -/
def resolveChildren (css : StyleSheet) : List Node → List StyledNode
  | [] => []
  | c :: cs => resolve css c :: resolveChildren css cs
end

/-- Ascending lists of triples. -/
def Ascending (l : List Matched) : Prop := l.Pairwise (fun a b => a.le b = true)

/-- The triples named `p` that carry the same `(specificity, source_index)` key
as the triple `t`. -/
def sameKeyNamed (t : Matched) (p : String) (x : Matched) : Bool :=
  decide (x.declaration.name = p) && (x.le t && t.le x)

/-- The value a rule's declaration block gives to a property name: the value of
its last declaration of that name, if any. -/
def declared (r : Rule) (name : String) : Option Value :=
  ((r.declarations.filter (fun d => decide (d.name = name))).getLast?).map (fun d => d.value)

/-- Whether some selector of the rule matches the node. -/
def ruleMatches (r : Rule) (node : Node) : Bool :=
  r.selectors.any (fun s => selectorMatches s node)

end Style

/-! ## `renderer/canvas.cpp` -/

namespace Layout

/-- Modelled from the spec: the origin type of `Layout::Rectangle` is declared
in a header that is not among the available sources. A rectangle is a floating-point origin
`(x, y)` with a width and a height. -/
structure Coordinates where
  x : Dbl
  y : Dbl
  deriving DecidableEq, Repr

/-- Modelled from the spec: `Layout::Rectangle` is declared in a header that is
not among the available sources; see `Layout.Coordinates`. -/
structure Rectangle where
  origin : Coordinates
  width : Dbl
  height : Dbl
  deriving DecidableEq, Repr

end Layout

namespace Display

/-- Modelled from the spec: `Display::RectangleCmd` is declared in a header that
is not among the available sources. The command carries a rectangle (`getRectangle()`) and a
colour (`getColor()`). -/
structure RectangleCmd where
  getRectangle : Layout.Rectangle
  getColor : CSS.ColorValue
  deriving DecidableEq, Repr

end Display

/-- A canvas (`Canvas`): width, height and the pixel vector. -/
structure Canvas where
  width : Nat
  height : Nat
  pixels : List CSS.ColorValue
  deriving DecidableEq, Repr

namespace Canvas

open CSS Display

/-- `Canvas::Canvas(uint64_t width, uint64_t height)`: a vector of
`width * height` (in `uint64_t` arithmetic) pixels `(255, 255, 255, 0)`. -/
def blank (width height : Nat) : Canvas :=
  { width := width
    height := height
    pixels := List.replicate ((width * height) % U64) (ColorValue.mk 255 255 255 0) }

/-- `Canvas::toPx`: `std::min(max, std::max(min, static_cast<uint64_t>(x)))`.
Undefined (`none`) exactly when the conversion is. -/
def toPx (x : Dbl) (min max : Nat) : Option Nat :=
  match x.toU64 with
  | none => none
  | some v => some (Nat.min max (Nat.max min v))

/-- The assignment `pixels[i] = color`; out of bounds is undefined behaviour. -/
def setPixel (pixels : List ColorValue) (i : Nat) (color : ColorValue) :
    Option (List ColorValue) :=
  if i < pixels.length then some (pixels.set i color) else none

/-- The inner loop `for (x = ...; x < x1; ++x) pixels[x + y * width] = color`
with `n` iterations left, the index computed in `uint64_t` arithmetic. -/
def renderRow (width : Nat) (color : ColorValue) (y : Nat) :
    Nat → Nat → List ColorValue → Option (List ColorValue)
  | 0, _, pixels => some pixels
  | n + 1, x, pixels =>
    match setPixel pixels ((x + y * width) % U64) color with
    | none => none
    | some pixels' => renderRow width color y n (x + 1) pixels'

/-- The outer loop `for (y = ...; y < y1; ++y)` with `m` iterations left; each
iteration runs the inner loop from `x0` to `x1`. -/
def renderRows (width : Nat) (color : ColorValue) (x0 x1 : Nat) :
    Nat → Nat → List ColorValue → Option (List ColorValue)
  | 0, _, pixels => some pixels
  | m + 1, y, pixels =>
    match renderRow width color y (x1 - x0) x0 pixels with
    | none => none
    | some pixels' => renderRows width color x0 x1 m (y + 1) pixels'

/-- `Canvas::render(const Display::RectangleCmd &)`. The floating-point sum
`add` of the platform is a parameter: its rounding plays no role in the
rasteriser, which only converts the sums with `toPx`. -/
def render (add : Dbl → Dbl → Dbl) (c : Canvas) (cmd : RectangleCmd) : Option Canvas :=
  let rect := cmd.getRectangle
  let color := cmd.getColor
  match toPx rect.origin.x 0 c.width, toPx rect.origin.y 0 c.height,
      toPx (add rect.origin.x rect.width) 0 c.width,
      toPx (add rect.origin.y rect.height) 0 c.height with
  | some x0, some y0, some x1, some y1 =>
    match renderRows c.width color x0 x1 (y1 - y0) y0 c.pixels with
    | none => none
    | some pixels' => some { c with pixels := pixels' }
  | _, _, _, _ => none

/-- A sequence of `render` calls, in order. -/
def renderAll (add : Dbl → Dbl → Dbl) : Canvas → List RectangleCmd → Option Canvas
  | c, [] => some c
  | c, cmd :: cmds =>
    match render add c cmd with
    | none => none
    | some c' => renderAll add c' cmds

/-- `Canvas::Canvas(const Layout::BoxPtr & root, const Layout::Rectangle & frame)`:
a blank canvas of the truncated frame size, on which the command queue is
drained front to back. The queue `Display::Command::createQueue(root)` is built
elsewhere and is a parameter here; `acceptRenderer` dispatches each
`RectangleCmd` to `render`. -/
def ofFrame (add : Dbl → Dbl → Dbl) (frame : Layout.Rectangle) (cmds : List RectangleCmd) :
    Option Canvas :=
  match frame.width.toU64, frame.height.toU64 with
  | some width, some height => renderAll add (blank width height) cmds
  | _, _ => none

/-- `Canvas::getPixels`: the channels of every pixel, pushed back in buffer
order (`reserve` only pre-allocates). -/
def getPixels (c : Canvas) : List (Fin 256) :=
  c.pixels.foldl (fun rawPixels pixel => rawPixels ++ pixel.channels) []

/-- The pixel at column `x` of row `y` (row-major, origin top-left). -/
def pixelAt (c : Canvas) (x y : Nat) : Option ColorValue :=
  c.pixels[x + y * c.width]?

end Canvas

/-! ## Basic facts -/

theorem isEmpty_iff_eq_empty (s : String) : s.isEmpty = true ↔ s = "" := by
  cases s with
  | mk data =>
    cases data with
    | nil => decide
    | cons c cs =>
      have h := Char.utf8Size_pos c
      simp [String.isEmpty, String.endPos, String.utf8ByteSize, String.ext_iff,
        String.Pos.ext_iff]
      omega

open CSS DOM Style

/-- C3. `specificity()` of a selector with fields `(tag, id, klass)` is exactly
the triple `(1 if id is non-empty else 0, number of classes, 1 if tag is
non-empty else 0)`; it is a function of those three fields alone, and its first
and third components are `0` or `1`. -/
theorem specificity_triple (tag id : String) (klass : List String) :
    (CSS.Selector.mk tag id klass).specificity =
        (if id = "" then 0 else 1, klass.length, if tag = "" then 0 else 1) ∧
      ((CSS.Selector.mk tag id klass).specificity.1 = 0 ∨
        (CSS.Selector.mk tag id klass).specificity.1 = 1) ∧
      ((CSS.Selector.mk tag id klass).specificity.2.2 = 0 ∨
        (CSS.Selector.mk tag id klass).specificity.2.2 = 1) := by
  by_cases hid : id = "" <;> by_cases htag : tag = "" <;>
    simp [Selector.specificity, isEmpty_iff_eq_empty, hid, htag]

/-! ## The order on collected triples -/

theorem Matched.le_iff (a b : Matched) :
    a.le b = true ↔
      a.specificity.1 < b.specificity.1 ∨
      (a.specificity.1 = b.specificity.1 ∧
        (a.specificity.2.1 < b.specificity.2.1 ∨
          (a.specificity.2.1 = b.specificity.2.1 ∧
            (a.specificity.2.2 < b.specificity.2.2 ∨
              (a.specificity.2.2 = b.specificity.2.2 ∧ a.sourceIndex ≤ b.sourceIndex))))) := by
  obtain ⟨da, ⟨a1, a2, a3⟩, ia⟩ := a
  obtain ⟨db, ⟨b1, b2, b3⟩, ib⟩ := b
  simp only [Matched.le, Specificity.lt, Bool.or_eq_true, Bool.and_eq_true, decide_eq_true_eq,
    Prod.mk.injEq]
  constructor
  · rintro (h | h) <;> omega
  · intro h
    by_cases h1 : a1 < b1
    · exact Or.inl (Or.inl h1)
    · by_cases h2 : a2 < b2
      · exact Or.inl (Or.inr ⟨by omega, Or.inl h2⟩)
      · by_cases h3 : a3 < b3
        · exact Or.inl (Or.inr ⟨by omega, Or.inr ⟨by omega, h3⟩⟩)
        · exact Or.inr ⟨⟨by omega, by omega, by omega⟩, by omega⟩

theorem Matched.le_refl (a : Matched) : a.le a = true := by
  rw [Matched.le_iff]; omega

theorem Matched.le_total (a b : Matched) : a.le b = true ∨ b.le a = true := by
  rw [Matched.le_iff, Matched.le_iff]; omega

theorem Matched.le_trans {a b c : Matched} (hab : a.le b = true) (hbc : b.le c = true) :
    a.le c = true := by
  rw [Matched.le_iff] at *; omega

theorem Matched.le_of_not_le {a b : Matched} (h : ¬ a.le b = true) : b.le a = true :=
  (Matched.le_total a b).resolve_left h

/-- Two triples below each other carry the same `(specificity, source_index)` key. -/
theorem Matched.key_eq_of_le_of_le {a b : Matched} (hab : a.le b = true) (hba : b.le a = true) :
    a.specificity = b.specificity ∧ a.sourceIndex = b.sourceIndex := by
  rw [Matched.le_iff] at hab hba
  refine ⟨Prod.ext ?_ (Prod.ext ?_ ?_), ?_⟩ <;> omega

/-! ## Insertion sort of the triples -/

theorem mem_insertMatched {a x : Matched} {l : List Matched} :
    x ∈ insertMatched a l ↔ x = a ∨ x ∈ l := by
  induction l with
  | nil => simp [insertMatched]
  | cons b l ih =>
    unfold insertMatched
    split
    · simp
    · simp only [List.mem_cons, ih]; tauto

theorem mem_sortMatched {x : Matched} {l : List Matched} : x ∈ sortMatched l ↔ x ∈ l := by
  induction l with
  | nil => simp [sortMatched]
  | cons a l ih => simp [sortMatched, mem_insertMatched, ih]

theorem insertMatched_ascending {a : Matched} {l : List Matched} (h : Ascending l) :
    Ascending (insertMatched a l) := by
  induction l with
  | nil => simp [insertMatched, Ascending]
  | cons b l ih =>
    unfold Ascending at h ih ⊢
    rw [List.pairwise_cons] at h
    unfold insertMatched
    split
    · next hab =>
      refine List.pairwise_cons.2 ⟨?_, List.pairwise_cons.2 h⟩
      intro x hx
      rcases List.mem_cons.1 hx with rfl | hx
      · exact hab
      · exact Matched.le_trans hab (h.1 x hx)
    · next hab =>
      refine List.pairwise_cons.2 ⟨?_, ih h.2⟩
      intro x hx
      rcases mem_insertMatched.1 hx with rfl | hx
      · exact Matched.le_of_not_le hab
      · exact h.1 x hx

theorem sortMatched_ascending (l : List Matched) : Ascending (sortMatched l) := by
  induction l with
  | nil => simp [sortMatched, Ascending]
  | cons a l ih => exact insertMatched_ascending ih

theorem insertMatched_of_le_all {a : Matched} {l : List Matched}
    (h : ∀ x ∈ l, a.le x = true) : insertMatched a l = a :: l := by
  cases l with
  | nil => rfl
  | cons b l => simp [insertMatched, h b (List.mem_cons_self _ _)]

theorem sortMatched_eq_self {l : List Matched} (h : Ascending l) : sortMatched l = l := by
  induction l with
  | nil => rfl
  | cons a l ih =>
    unfold Ascending at h ih
    rw [List.pairwise_cons] at h
    rw [sortMatched, ih h.2, insertMatched_of_le_all h.1]

/-- Filtering commutes with insertion into an ascending list: the sort is stable. -/
theorem filter_insertMatched (q : Matched → Bool) {a : Matched} {l : List Matched}
    (h : Ascending l) :
    (insertMatched a l).filter q =
      if q a = true then insertMatched a (l.filter q) else l.filter q := by
  induction l with
  | nil => by_cases hq : q a = true <;> simp [insertMatched, hq]
  | cons b l ih =>
    unfold Ascending at h ih
    rw [List.pairwise_cons] at h
    by_cases hab : a.le b = true
    · have hall : ∀ x ∈ (b :: l).filter q, a.le x = true := by
        intro x hx
        rcases List.mem_cons.1 (List.mem_filter.1 hx).1 with rfl | hx
        · exact hab
        · exact Matched.le_trans hab (h.1 x hx)
      rw [insertMatched_of_le_all hall]
      by_cases hq : q a = true <;> simp [insertMatched, hab, hq]
    · have ih' := ih h.2
      by_cases hqb : q b = true
      · by_cases hq : q a = true <;>
          simp [insertMatched, hab, hqb, hq, ih']
      · by_cases hq : q a = true <;>
          simp [insertMatched, hab, hqb, hq, ih']

theorem filter_sortMatched (q : Matched → Bool) (l : List Matched) :
    (sortMatched l).filter q = sortMatched (l.filter q) := by
  induction l with
  | nil => simp [sortMatched]
  | cons a l ih =>
    rw [sortMatched, filter_insertMatched q (sortMatched_ascending l), ih]
    by_cases hq : q a = true <;> simp [hq, sortMatched]

/-- The last triple of an ascending list is above every triple of the list. -/
theorem Style.Ascending.le_getLast {l : List Matched} (h : Ascending l) {e : Matched}
    (he : l.getLast? = some e) : ∀ x ∈ l, x.le e = true := by
  obtain ⟨ys, rfl⟩ := List.getLast?_eq_some_iff.1 he
  intro x hx
  unfold Ascending at h
  rw [List.pairwise_append] at h
  rcases List.mem_append.1 hx with hx | hx
  · exact h.2.2 x hx e (List.mem_singleton_self e)
  · rw [List.mem_singleton.1 hx]; exact Matched.le_refl e

theorem getLast?_filter_of_pos {α : Type} (q : α → Bool) {l : List α} {e : α}
    (he : l.getLast? = some e) (hq : q e = true) : (l.filter q).getLast? = some e := by
  obtain ⟨ys, rfl⟩ := List.getLast?_eq_some_iff.1 he
  simp [List.filter_append, hq]

theorem mem_of_getLast? {α : Type} {l : List α} {e : α} (he : l.getLast? = some e) : e ∈ l := by
  obtain ⟨ys, rfl⟩ := List.getLast?_eq_some_iff.1 he
  simp

/-! ## Applying the triples -/

theorem applyAll_concat (l : List Matched) (t : Matched) :
    applyAll (l ++ [t]) = (applyAll l).set t.declaration.name t.declaration.value := by
  simp [applyAll, List.foldl_append]

/-- Step 3 yields, for each name, the value of the last applied triple of that name. -/
theorem applyAll_eq (l : List Matched) (p : String) :
    applyAll l p =
      ((l.filter (fun t => decide (t.declaration.name = p))).getLast?).map
        (fun t => t.declaration.value) := by
  induction l using List.reverseRecOn with
  | nil => rfl
  | append_singleton l t ih =>
    rw [applyAll_concat, List.filter_append]
    by_cases h : t.declaration.name = p
    · simp [PropertyMap.set, h]
    · have h' : ¬ p = t.declaration.name := fun e => h e.symm
      simp [PropertyMap.set, h, h', ih]

/-! ## The winner of the cascade -/

/-- After sorting and applying, the value of `p` is that of the last collected
triple named `p` among those carrying the maximal key. -/
theorem applyAll_sortMatched_eq (T : List Matched) (p : String) (t : Matched)
    (ht : t ∈ T) (hp : t.declaration.name = p)
    (hmax : ∀ x ∈ T, x.declaration.name = p → x.le t = true) :
    applyAll (sortMatched T) p =
      ((T.filter (sameKeyNamed t p)).getLast?).map (fun x => x.declaration.value) := by
  rw [applyAll_eq, filter_sortMatched]
  set M := T.filter (fun x => decide (x.declaration.name = p)) with hM
  have htM : t ∈ M := List.mem_filter.2 ⟨ht, by simpa using hp⟩
  have hne : (sortMatched M).getLast? ≠ none := by
    rw [Ne, List.getLast?_eq_none_iff]
    intro h
    have := mem_sortMatched.2 htM
    rw [h] at this
    exact absurd this (List.not_mem_nil _)
  obtain ⟨e, he⟩ := Option.ne_none_iff_exists'.1 hne
  have heM : e ∈ M := mem_sortMatched.1 (mem_of_getLast? he)
  have heT : e ∈ T := (List.mem_filter.1 heM).1
  have hep : e.declaration.name = p := by simpa using (List.mem_filter.1 heM).2
  have het : e.le t = true := hmax e heT hep
  have hte : t.le e = true :=
    (sortMatched_ascending M).le_getLast he t (mem_sortMatched.2 htM)
  let q : Matched → Bool := fun x => x.le t && t.le x
  have hq : q e = true := by simp [q, het, hte]
  have h1 := getLast?_filter_of_pos q he hq
  rw [filter_sortMatched] at h1
  have hasc : Ascending (M.filter q) := by
    apply List.pairwise_of_forall_mem_list
    intro a ha b hb
    have ha' : q a = true := (List.mem_filter.1 ha).2
    have hb' : q b = true := (List.mem_filter.1 hb).2
    simp only [q, Bool.and_eq_true] at ha' hb'
    exact Matched.le_trans ha'.1 hb'.2
  rw [sortMatched_eq_self hasc, hM, List.filter_filter] at h1
  have h2 : T.filter (sameKeyNamed t p) =
      T.filter (fun a => q a && decide (a.declaration.name = p)) := by
    apply List.filter_congr
    intro x _
    simp only [sameKeyNamed, q]
    exact Bool.and_comm _ _
  rw [h2, h1, he]

theorem mem_collectSelectors {node : Node} {idx : Nat} {decls : List Declaration}
    {ss : List Selector} {x : Matched} :
    x ∈ collectSelectors node idx decls ss ↔
      ∃ s ∈ ss, selectorMatches s node = true ∧
        ∃ d ∈ decls, x = Matched.mk d s.specificity idx := by
  induction ss with
  | nil => simp [collectSelectors]
  | cons s ss ih =>
    simp only [collectSelectors, List.mem_append, ih, List.mem_cons, exists_eq_or_imp]
    by_cases hm : selectorMatches s node = true
    · simp only [hm, if_true, List.mem_map, true_and]
      constructor
      · rintro (⟨d, hd, rfl⟩ | h)
        · exact Or.inl ⟨d, hd, rfl⟩
        · exact Or.inr h
      · rintro (⟨d, hd, rfl⟩ | h)
        · exact Or.inl ⟨d, hd, rfl⟩
        · exact Or.inr h
    · simp [hm]

theorem mem_collectFrom {node : Node} {rules : List Rule} {k : Nat} {x : Matched} :
    x ∈ collectFrom node k rules ↔
      ∃ j r, rules[j]? = some r ∧ ∃ s ∈ r.selectors, selectorMatches s node = true ∧
        ∃ d ∈ r.declarations, x = Matched.mk d s.specificity (k + j) := by
  induction rules generalizing k with
  | nil => simp [collectFrom]
  | cons r rs ih =>
    simp only [collectFrom, List.mem_append, mem_collectSelectors, ih]
    constructor
    · rintro (h | ⟨j, r', hj, h⟩)
      · exact ⟨0, r, by simp, by simpa using h⟩
      · refine ⟨j + 1, r', by simpa using hj, ?_⟩
        have e : k + 1 + j = k + (j + 1) := by omega
        rw [← e]; exact h
    · rintro ⟨j, r', hj, h⟩
      cases j with
      | zero =>
        simp only [List.getElem?_cons_zero, Option.some.injEq] at hj
        subst hj
        exact Or.inl (by simpa using h)
      | succ j =>
        refine Or.inr ⟨j, r', by simpa using hj, ?_⟩
        have e : k + 1 + j = k + (j + 1) := by omega
        rw [e]; exact h

/-- The triples of one rule that share the key of `t` and the name `p` end with
the rule's last declaration of `p`. -/
theorem collectSelectors_sameKey_last (node : Node) (idx : Nat) (decls : List Declaration)
    (t : Matched) (p : String) (ss : List Selector) :
    (collectSelectors node idx decls ss).filter (sameKeyNamed t p) = [] ∨
      (((collectSelectors node idx decls ss).filter (sameKeyNamed t p)).getLast?).map
          (fun x => x.declaration.value) =
        ((decls.filter (fun d => decide (d.name = p))).getLast?).map (fun d => d.value) := by
  induction ss with
  | nil => left; rfl
  | cons s ss ih =>
    rw [collectSelectors, List.filter_append]
    by_cases hrest : (collectSelectors node idx decls ss).filter (sameKeyNamed t p) = []
    · rw [hrest, List.append_nil]
      by_cases hm : selectorMatches s node = true
      · simp only [hm, if_true]
        by_cases hk : (Matched.mk ⟨"", .text ⟨""⟩⟩ s.specificity idx).le t = true ∧
            t.le (Matched.mk ⟨"", .text ⟨""⟩⟩ s.specificity idx) = true
        · right
          have hf : (decls.map (fun d => Matched.mk d s.specificity idx)).filter
              (sameKeyNamed t p) =
              (decls.filter (fun d => decide (d.name = p))).map
                (fun d => Matched.mk d s.specificity idx) := by
            rw [List.filter_map]
            congr 1
            apply List.filter_congr
            intro d _
            have h1 : (Matched.mk d s.specificity idx).le t = true := by
              have := hk.1
              rw [Matched.le_iff] at this ⊢
              exact this
            have h2 : t.le (Matched.mk d s.specificity idx) = true := by
              have := hk.2
              rw [Matched.le_iff] at this ⊢
              exact this
            simp [sameKeyNamed, h1, h2]
          rw [hf, List.getLast?_map, Option.map_map]
          rfl
        · left
          rw [List.filter_eq_nil_iff]
          intro x hx
          obtain ⟨d, _, rfl⟩ := List.mem_map.1 hx
          intro hq
          simp only [sameKeyNamed, Bool.and_eq_true] at hq
          apply hk
          constructor
          · have := hq.2.1
            rw [Matched.le_iff] at this ⊢
            exact this
          · have := hq.2.2
            rw [Matched.le_iff] at this ⊢
            exact this
      · left; simp [hm]
    · right
      rw [List.getLast?_append_of_ne_nil _ hrest]
      exact ih.resolve_left hrest

/-- The collected triples that share the key of `t` and the name `p` end with
the last declaration of `p` in the rule at the source index of `t`. -/
theorem collectFrom_sameKey_last (node : Node) (t : Matched) (p : String) (r : Rule)
    (rules : List Rule) (k : Nat)
    (hr : ∀ j r', rules[j]? = some r' → k + j = t.sourceIndex → r' = r) :
    (collectFrom node k rules).filter (sameKeyNamed t p) = [] ∨
      (((collectFrom node k rules).filter (sameKeyNamed t p)).getLast?).map
          (fun x => x.declaration.value) = declared r p := by
  induction rules generalizing k with
  | nil => left; rfl
  | cons r0 rs ih =>
    rw [collectFrom, List.filter_append]
    by_cases hrest : (collectFrom node (k + 1) rs).filter (sameKeyNamed t p) = []
    · rw [hrest, List.append_nil]
      by_cases hk : k = t.sourceIndex
      · have h0 : r0 = r := hr 0 r0 (by simp) (by simpa using hk)
        subst h0
        exact collectSelectors_sameKey_last node k r0.declarations t p r0.selectors
      · left
        rw [List.filter_eq_nil_iff]
        intro x hx hq
        obtain ⟨s, _, _, d, _, rfl⟩ := mem_collectSelectors.1 hx
        simp only [sameKeyNamed, Bool.and_eq_true] at hq
        exact hk (Matched.key_eq_of_le_of_le hq.2.1 hq.2.2).2
    · right
      rw [List.getLast?_append_of_ne_nil _ hrest]
      refine (ih (k + 1) ?_).resolve_left hrest
      intro j r' hj hidx
      exact hr (j + 1) r' (by simpa using hj) (by omega)

/-- The cascade: if a selector `s` of the rule `r` at position `i` matches the
node, `r` gives `p` the value `v`, and `(specificity s, i)` is maximal among the
keys of matching selectors of rules that declare `p`, then the node's value of
`p` is `v`. -/
theorem cascade_winner (css : StyleSheet) (node : Node) (p : String) (i : Nat) (r : Rule)
    (s : Selector) (v : Value) (helem : node.isElement = true)
    (hr : css[i]? = some r) (hs : s ∈ r.selectors) (hm : selectorMatches s node = true)
    (hv : declared r p = some v)
    (hmax : ∀ j r' s' d, css[j]? = some r' → s' ∈ r'.selectors →
      selectorMatches s' node = true → d ∈ r'.declarations → d.name = p →
      (Matched.mk d s'.specificity j).le (Matched.mk d s.specificity i) = true) :
    (resolve css node).value p = some v := by
  have hval : (resolve css node).value p = mapProps css node p := by
    cases node <;> rfl
  rw [hval, mapProps, if_pos helem]
  -- a declaration of `p` in `r`
  obtain ⟨d0, hd0⟩ : ∃ d0, (r.declarations.filter (fun d => decide (d.name = p))).getLast? =
      some d0 := by
    unfold declared at hv
    cases h : (r.declarations.filter (fun d => decide (d.name = p))).getLast? with
    | none => rw [h] at hv; simp at hv
    | some d0 => exact ⟨d0, rfl⟩
  have hd0mem := List.mem_filter.1 (mem_of_getLast? hd0)
  have hd0p : d0.name = p := by simpa using hd0mem.2
  set t : Matched := Matched.mk d0 s.specificity i with ht
  have htT : t ∈ collectFrom node 0 css :=
    mem_collectFrom.2 ⟨i, r, hr, s, hs, hm, d0, hd0mem.1, by simp [ht]⟩
  have hmax' : ∀ x ∈ collectFrom node 0 css, x.declaration.name = p → x.le t = true := by
    intro x hx hxp
    obtain ⟨j, r', hj, s', hs', hm', d, hd, rfl⟩ := mem_collectFrom.1 hx
    have := hmax j r' s' d hj hs' hm' hd hxp
    rw [Matched.le_iff] at this ⊢
    simpa using this
  rw [applyAll_sortMatched_eq _ p t htT hd0p hmax']
  have hne : (collectFrom node 0 css).filter (sameKeyNamed t p) ≠ [] := by
    intro h
    have : t ∈ (collectFrom node 0 css).filter (sameKeyNamed t p) :=
      List.mem_filter.2 ⟨htT, by simp [sameKeyNamed, hd0p, Matched.le_refl]⟩
    rw [h] at this
    exact absurd this (List.not_mem_nil _)
  have hlast := (collectFrom_sameKey_last node t p r css 0 (by
    intro j r' hj hidx
    have hji : j = i := by simpa [ht] using hidx
    subst hji
    rw [hr] at hj
    exact (Option.some.inj hj).symm)).resolve_left hne
  rw [hlast, hv]


/-- Among the matching selectors of a list there is one of maximal specificity. -/
theorem exists_max_matching (node : Node) (d : Declaration) (i : Nat) (ss : List Selector)
    (h : ∃ s ∈ ss, selectorMatches s node = true) :
    ∃ s ∈ ss, selectorMatches s node = true ∧
      ∀ s' ∈ ss, selectorMatches s' node = true →
        (Matched.mk d s'.specificity i).le (Matched.mk d s.specificity i) = true := by
  induction ss with
  | nil => obtain ⟨s, hs, _⟩ := h; exact absurd hs (List.not_mem_nil _)
  | cons a ss ih =>
    by_cases hrest : ∃ s ∈ ss, selectorMatches s node = true
    · obtain ⟨m, hm, hmm, hmax⟩ := ih hrest
      by_cases ha : selectorMatches a node = true
      · rcases Matched.le_total (Matched.mk d a.specificity i) (Matched.mk d m.specificity i)
          with hle | hle
        · refine ⟨m, List.mem_cons_of_mem _ hm, hmm, ?_⟩
          intro s' hs' hs'm
          rcases List.mem_cons.1 hs' with rfl | hs'
          · exact hle
          · exact hmax s' hs' hs'm
        · refine ⟨a, List.mem_cons_self _ _, ha, ?_⟩
          intro s' hs' hs'm
          rcases List.mem_cons.1 hs' with rfl | hs'
          · exact Matched.le_refl _
          · exact Matched.le_trans (hmax s' hs' hs'm) hle
      · refine ⟨m, List.mem_cons_of_mem _ hm, hmm, ?_⟩
        intro s' hs' hs'm
        rcases List.mem_cons.1 hs' with rfl | hs'
        · exact absurd hs'm ha
        · exact hmax s' hs' hs'm
    · obtain ⟨s, hs, hsm⟩ := h
      rcases List.mem_cons.1 hs with rfl | hs
      · refine ⟨s, List.mem_cons_self _ _, hsm, ?_⟩
        intro s' hs' hs'm
        rcases List.mem_cons.1 hs' with rfl | hs'
        · exact Matched.le_refl _
        · exact absurd ⟨s', hs', hs'm⟩ hrest
      · exact absurd ⟨s, hs, hsm⟩ hrest

theorem specificity_fst_of_id_empty {s : Selector} (h : s.id = "") : s.specificity.1 = 0 := by
  simp [Selector.specificity, isEmpty_iff_eq_empty, h]

theorem specificity_fst_of_id_nonempty {s : Selector} (h : s.id ≠ "") : s.specificity.1 = 1 := by
  simp [Selector.specificity, isEmpty_iff_eq_empty, h]

/-- C1. Cascade, id beats non-id: if the rule `R1` matches the element node
through a selector with a non-empty id and gives `p` the value `v1`, and every
selector of `R2` has an empty id (any tag, any number of classes), then the
node's value of `p` is `v1` under both style sheets `[R1, R2]` and `[R2, R1]`,
whatever `R2` declares for `p`. -/
theorem cascade_id_beats_non_id (node : Node) (p : String) (R1 R2 : Rule) (v1 : Value)
    (helem : node.isElement = true)
    (hm1 : ∃ s ∈ R1.selectors, selectorMatches s node = true ∧ s.id ≠ "")
    (hid2 : ∀ s ∈ R2.selectors, s.id = "")
    (hd1 : declared R1 p = some v1) :
    (resolve [R1, R2] node).value p = some v1 ∧ (resolve [R2, R1] node).value p = some v1 := by
  obtain ⟨sid, hsid, hsidm, hsidne⟩ := hm1
  have key : ∀ i, ∃ s ∈ R1.selectors, selectorMatches s node = true ∧ s.specificity.1 = 1 ∧
      ∀ s' ∈ R1.selectors, selectorMatches s' node = true → ∀ d : Declaration,
        (Matched.mk d s'.specificity i).le (Matched.mk d s.specificity i) = true := by
    intro i
    obtain ⟨s, hs, hsm, hmax⟩ :=
      exists_max_matching node ⟨"", .text ⟨""⟩⟩ i R1.selectors ⟨sid, hsid, hsidm⟩
    have h1 := hmax sid hsid hsidm
    have hsid1 := specificity_fst_of_id_nonempty hsidne
    have hs1 : s.specificity.1 = 0 ∨ s.specificity.1 = 1 := by
      by_cases h : s.id = ""
      · exact Or.inl (specificity_fst_of_id_empty h)
      · exact Or.inr (specificity_fst_of_id_nonempty h)
    refine ⟨s, hs, hsm, ?_, ?_⟩
    · rw [Matched.le_iff] at h1
      simp only at h1
      omega
    · intro s' hs' hs'm d
      have := hmax s' hs' hs'm
      rw [Matched.le_iff] at this ⊢
      exact this
  constructor
  · obtain ⟨s, hs, hsm, hs1, hmax⟩ := key 0
    refine cascade_winner [R1, R2] node p 0 R1 s v1 helem rfl hs hsm hd1 ?_
    intro j r' s' d hj hs' hs'm _ _
    match j, hj with
    | 0, hj =>
      have : r' = R1 := by simpa using hj.symm
      subst this
      exact hmax s' hs' hs'm d
    | 1, hj =>
      have : r' = R2 := by simpa using hj.symm
      subst this
      have h0 := specificity_fst_of_id_empty (hid2 s' hs')
      rw [Matched.le_iff]
      simp only
      omega
    | j + 2, hj => simp at hj
  · obtain ⟨s, hs, hsm, hs1, hmax⟩ := key 1
    refine cascade_winner [R2, R1] node p 1 R1 s v1 helem rfl hs hsm hd1 ?_
    intro j r' s' d hj hs' hs'm _ _
    match j, hj with
    | 0, hj =>
      have : r' = R2 := by simpa using hj.symm
      subst this
      have h0 := specificity_fst_of_id_empty (hid2 s' hs')
      rw [Matched.le_iff]
      simp only
      omega
    | 1, hj =>
      have : r' = R1 := by simpa using hj.symm
      subst this
      exact hmax s' hs' hs'm d
    | j + 2, hj => simp at hj

/-- C1, at the rules `#id{color:red;}` and `html.c1{color:green;}` of the
test-suite on `<html id="id" class="c1 c2">`. -/
theorem cascade_id_beats_non_id_witness :
    (resolve [⟨[⟨"", "id", []⟩], [⟨"color", .text ⟨"red"⟩⟩]⟩,
        ⟨[⟨"html", "", ["c1"]⟩], [⟨"color", .text ⟨"green"⟩⟩]⟩]
      (.element "html" "id" ["c1", "c2"] [] [])).value "color" = some (.text ⟨"red"⟩) ∧
    (resolve [⟨[⟨"html", "", ["c1"]⟩], [⟨"color", .text ⟨"green"⟩⟩]⟩,
        ⟨[⟨"", "id", []⟩], [⟨"color", .text ⟨"red"⟩⟩]⟩]
      (.element "html" "id" ["c1", "c2"] [] [])).value "color" = some (.text ⟨"red"⟩) :=
  cascade_id_beats_non_id (.element "html" "id" ["c1", "c2"] [] []) "color"
    ⟨[⟨"", "id", []⟩], [⟨"color", .text ⟨"red"⟩⟩]⟩
    ⟨[⟨"html", "", ["c1"]⟩], [⟨"color", .text ⟨"green"⟩⟩]⟩ (.text ⟨"red"⟩)
    (by decide) (by decide) (by decide) (by decide)

/-- C2. Cascade, source-order tie-break: in a style sheet where `R1` stands at
position `i` and `R2` at a later position `j`, both matching the element node
only through selectors of one and the same specificity, `R2` matching and
giving `p` the value `v2`, and no other matching rule declaring `p`, the
node's value of `p` is `v2`. -/
theorem cascade_source_order (css : StyleSheet) (node : Node) (p : String) (i j : Nat)
    (R1 R2 : Rule) (σ : Specificity) (v2 : Value)
    (helem : node.isElement = true) (hij : i < j)
    (h1 : css[i]? = some R1) (h2 : css[j]? = some R2)
    (hs1 : ∀ s ∈ R1.selectors, selectorMatches s node = true → s.specificity = σ)
    (hs2 : ∀ s ∈ R2.selectors, selectorMatches s node = true → s.specificity = σ)
    (hm2 : ruleMatches R2 node = true)
    (hd2 : declared R2 p = some v2)
    (hother : ∀ k r, css[k]? = some r → k ≠ i → k ≠ j → ruleMatches r node = true →
      ∀ d ∈ r.declarations, d.name ≠ p) :
    (resolve css node).value p = some v2 := by
  obtain ⟨s2, hs2mem, hs2m⟩ : ∃ s ∈ R2.selectors, selectorMatches s node = true := by
    simpa [ruleMatches] using hm2
  refine cascade_winner css node p j R2 s2 v2 helem h2 hs2mem hs2m hd2 ?_
  intro k r' s' d hk hs' hs'm hd hdp
  have hσ2 := hs2 s2 hs2mem hs2m
  by_cases hkj : k = j
  · subst hkj
    have : r' = R2 := by rw [h2] at hk; exact (Option.some.inj hk).symm
    subst this
    rw [hs2 s' hs' hs'm, hσ2]
    exact Matched.le_refl _
  · by_cases hki : k = i
    · subst hki
      have : r' = R1 := by rw [h1] at hk; exact (Option.some.inj hk).symm
      subst this
      rw [hs1 s' hs' hs'm, hσ2, Matched.le_iff]
      exact Or.inr ⟨rfl, Or.inr ⟨rfl, Or.inr ⟨rfl, Nat.le_of_lt hij⟩⟩⟩
    · have hrm : ruleMatches r' node = true := by
        simp only [ruleMatches, List.any_eq_true]
        exact ⟨s', hs', hs'm⟩
      exact absurd hdp (hother k r' hk hki hkj hrm d hd)

/-- C2, at `.a{color:red;} b{x:y;} .b{color:green;}` on `<p class="a b">`. -/
theorem cascade_source_order_witness :
    (resolve [⟨[⟨"", "", ["a"]⟩], [⟨"color", .text ⟨"red"⟩⟩]⟩,
        ⟨[⟨"b", "", []⟩], [⟨"x", .text ⟨"y"⟩⟩]⟩,
        ⟨[⟨"", "", ["b"]⟩], [⟨"color", .text ⟨"green"⟩⟩]⟩]
      (.element "p" "" ["a", "b"] [] [])).value "color" = some (.text ⟨"green"⟩) :=
  cascade_source_order
    [⟨[⟨"", "", ["a"]⟩], [⟨"color", .text ⟨"red"⟩⟩]⟩,
      ⟨[⟨"b", "", []⟩], [⟨"x", .text ⟨"y"⟩⟩]⟩,
      ⟨[⟨"", "", ["b"]⟩], [⟨"color", .text ⟨"green"⟩⟩]⟩]
    (.element "p" "" ["a", "b"] [] []) "color" 0 2
    ⟨[⟨"", "", ["a"]⟩], [⟨"color", .text ⟨"red"⟩⟩]⟩
    ⟨[⟨"", "", ["b"]⟩], [⟨"color", .text ⟨"green"⟩⟩]⟩ (0, 1, 0) (.text ⟨"green"⟩)
    (by decide) (by decide) (by decide) (by decide) (by decide) (by decide) (by decide)
    (by decide)
    (by
      intro k r hk hk0 hk2 hm
      match k, hk with
      | 0, _ => exact absurd rfl hk0
      | 1, hk =>
        have : r = ⟨[⟨"b", "", []⟩], [⟨"x", .text ⟨"y"⟩⟩]⟩ := by simpa using hk.symm
        subst this
        exact absurd hm (by decide)
      | 2, _ => exact absurd rfl hk2
      | k + 3, hk => simp at hk)

/-! ## Lookups on the styled tree -/

theorem value_resolve (css : StyleSheet) (node : Node) (p : String) :
    (resolve css node).value p = mapProps css node p := by
  cases node <;> rfl

theorem selectorMatches_element_iff (s : Selector) (tag id : String) (classes : List String)
    (attributes : List (String × String)) (children : List Node) :
    selectorMatches s (.element tag id classes attributes children) = true ↔
      (s.tag = "" ∨ s.tag = tag) ∧ (s.id = "" ∨ s.id = id) ∧ ∀ c ∈ s.klass, c ∈ classes := by
  simp [selectorMatches, isEmpty_iff_eq_empty, and_assoc]

theorem ruleMatches_iff (r : Rule) (node : Node) :
    ruleMatches r node = true ↔ ∃ s ∈ r.selectors, selectorMatches s node = true := by
  simp [ruleMatches]

/-- A name that only one declaration (up to repetition) of the matching rules
carries resolves to that declaration's value. -/
theorem value_of_unique_declaration (css : StyleSheet) (node : Node) (p : String) (i : Nat)
    (r : Rule) (d : Declaration) (helem : node.isElement = true) (hr : css[i]? = some r)
    (hm : ruleMatches r node = true) (hd : d ∈ r.declarations) (hp : d.name = p)
    (huniq : ∀ (j : Nat) r' d', css[j]? = some r' → ruleMatches r' node = true →
      d' ∈ r'.declarations → d'.name = p → d' = d) :
    (resolve css node).value p = some d.value := by
  rw [value_resolve, mapProps, if_pos helem, applyAll_eq]
  obtain ⟨s, hs, hsm⟩ := (ruleMatches_iff r node).1 hm
  set F := (sortMatched (collectFrom node 0 css)).filter
    (fun t => decide (t.declaration.name = p)) with hF
  have hall : ∀ x ∈ F, x.declaration = d := by
    intro x hx
    obtain ⟨hxT, hxp⟩ := List.mem_filter.1 hx
    obtain ⟨j, r', hj, s', hs', hs'm, d', hd', rfl⟩ := mem_collectFrom.1 (mem_sortMatched.1 hxT)
    exact huniq j r' d' hj ((ruleMatches_iff r' node).2 ⟨s', hs', hs'm⟩) hd' (by simpa using hxp)
  have hmem : Matched.mk d s.specificity (0 + i) ∈ F :=
    List.mem_filter.2 ⟨mem_sortMatched.2 (mem_collectFrom.2 ⟨i, r, hr, s, hs, hsm, d, hd, rfl⟩),
      by simpa using hp⟩
  cases hlast : F.getLast? with
  | none =>
    rw [List.getLast?_eq_none_iff] at hlast
    rw [hlast] at hmem
    exact absurd hmem (List.not_mem_nil _)
  | some e => simp [hall e (mem_of_getLast? hlast)]

/-- A name that no declaration of the matching rules carries stays unset. -/
theorem value_of_no_declaration (css : StyleSheet) (node : Node) (p : String)
    (h : ∀ (j : Nat) r, css[j]? = some r → ruleMatches r node = true →
      ∀ d ∈ r.declarations, d.name ≠ p) :
    (resolve css node).value p = none := by
  rw [value_resolve, mapProps]
  split
  · rw [applyAll_eq]
    have : (sortMatched (collectFrom node 0 css)).filter
        (fun t => decide (t.declaration.name = p)) = [] := by
      rw [List.filter_eq_nil_iff]
      intro x hx hxp
      obtain ⟨j, r', hj, s', hs', hs'm, d', hd', rfl⟩ := mem_collectFrom.1 (mem_sortMatched.1 hx)
      exact h j r' hj ((ruleMatches_iff r' node).2 ⟨s', hs', hs'm⟩) d' hd' (by simpa using hxp)
    rw [this]
    rfl
  · rfl

/-! ## Shape of the styled tree -/

theorem resolveChildren_eq_map (css : StyleSheet) (l : List Node) :
    resolveChildren css l = l.map (resolve css) := by
  induction l with
  | nil => rfl
  | cons c cs ih => simp [resolveChildren, ih]

theorem getChildren_resolve (css : StyleSheet) (d : Node) :
    (resolve css d).getChildren = d.getChildren.map (resolve css) := by
  cases d <;> simp [resolve, StyledNode.getChildren, Node.getChildren, resolveChildren_eq_map]

mutual
theorem size_resolve (css : StyleSheet) : ∀ d : Node, (resolve css d).size = d.size
  | .element _ _ _ _ children => by
    simp [resolve, StyledNode.size, Node.size, sizeList_resolveChildren css children]
  | .text _ children => by
    simp [resolve, StyledNode.size, Node.size, sizeList_resolveChildren css children]
  | .comment _ children => by
    simp [resolve, StyledNode.size, Node.size, sizeList_resolveChildren css children]
theorem sizeList_resolveChildren (css : StyleSheet) :
    ∀ l : List Node, StyledNode.sizeList (resolveChildren css l) = Node.sizeList l
  | [] => rfl
  | c :: cs => by
    simp [resolveChildren, StyledNode.sizeList, Node.sizeList, size_resolve css c,
      sizeList_resolveChildren css cs]
end

theorem descend_resolve (css : StyleSheet) (path : List Nat) :
    ∀ root : Node, (resolve css root).descend path = (root.descend path).map (resolve css) := by
  induction path with
  | nil => intro root; rfl
  | cons i path ih =>
    intro root
    rw [StyledNode.descend, Node.descend, getChildren_resolve, List.getElem?_map]
    cases root.getChildren[i]? with
    | none => rfl
    | some c => exact ih c

/-- C7. Selector matching feeds the cascade: a selector matches an element node
iff its tag is empty or the node's, its id is empty or the node's, and each of
its classes is a class of the node; a property name carried by exactly one
declaration among the rules with a matching selector resolves to that
declaration's value; and the six-rule style sheet of the test-suite resolves on
`<html id="id" class="class1 class2">` to `font-size=15px`, `color=red`,
`background=green`, `text-decoration=none`, `display=block`,
`font-style=normal`. -/
theorem matching_feeds_cascade :
    (∀ (s : Selector) (tag id : String) (classes : List String)
        (attributes : List (String × String)) (children : List Node),
      selectorMatches s (.element tag id classes attributes children) = true ↔
        (s.tag = "" ∨ s.tag = tag) ∧ (s.id = "" ∨ s.id = id) ∧ ∀ c ∈ s.klass, c ∈ classes) ∧
    (∀ (css : StyleSheet) (node : Node) (p : String) (i : Nat) (r : Rule) (d : Declaration),
      node.isElement = true → css[i]? = some r → ruleMatches r node = true →
      d ∈ r.declarations → d.name = p →
      (∀ (j : Nat) r' d', css[j]? = some r' → ruleMatches r' node = true →
        d' ∈ r'.declarations → d'.name = p → d' = d) →
      (resolve css node).value p = some d.value) ∧
    (∀ root : StyledNode,
      root = resolve
        [⟨[⟨"html", "id", ["class1", "class2"]⟩], [⟨"font-size", .unit ⟨Dbl.ofNat 15, .px⟩⟩]⟩,
          ⟨[⟨"", "", ["class1"]⟩], [⟨"color", .text ⟨"red"⟩⟩]⟩,
          ⟨[⟨"", "", ["class2"]⟩], [⟨"background", .text ⟨"green"⟩⟩]⟩,
          ⟨[⟨"", "id", []⟩], [⟨"text-decoration", .text ⟨"none"⟩⟩]⟩,
          ⟨[⟨"html", "", []⟩], [⟨"display", .text ⟨"block"⟩⟩]⟩,
          ⟨[⟨"", "", []⟩], [⟨"font-style", .text ⟨"normal"⟩⟩]⟩]
        (.element "html" "id" ["class1", "class2"]
          [("id", "id"), ("class", "class1 class2")] []) →
      (root.value "font-size").bind Value.print = some "15px" ∧
      (root.value "color").bind Value.print = some "red" ∧
      (root.value "background").bind Value.print = some "green" ∧
      (root.value "text-decoration").bind Value.print = some "none" ∧
      (root.value "display").bind Value.print = some "block" ∧
      (root.value "font-style").bind Value.print = some "normal") := by
  refine ⟨selectorMatches_element_iff, ?_, ?_⟩
  · intro css node p i r d helem hr hm hd hp huniq
    exact value_of_unique_declaration css node p i r d helem hr hm hd hp huniq
  · intro root hroot
    subst hroot
    decide

/-- C8. Useless rules and absent lookup: when no rule with a selector matching
the node declares `p`, resolution yields a styled node on which `value(p)` is
absent and `value_or(p, d)` is the caller's default `d` itself, for every
default `d`, so that it prints as `d` prints. -/
theorem useless_rules_absent (css : StyleSheet) (node : Node) (p : String)
    (h : ∀ (j : Nat) r, css[j]? = some r → ruleMatches r node = true →
      ∀ d ∈ r.declarations, d.name ≠ p) :
    (resolve css node).value p = none ∧
      ∀ d : Value, (resolve css node).value_or p d = d ∧
        ((resolve css node).value_or p d).print = d.print := by
  have hnone := value_of_no_declaration css node p h
  refine ⟨hnone, fun d => ?_⟩
  have hd : (resolve css node).value_or p d = d := by
    simp [StyledNode.value_or, hnone]
  exact ⟨hd, by rw [hd]⟩

/-- C8, at the style sheet `html#id.c1.c2{color:red;}` on `<html></html>` with
the default `TextValue("NO VALUE")`. -/
theorem useless_rules_absent_witness :
    (resolve [⟨[⟨"html", "id", ["c1", "c2"]⟩], [⟨"color", .text ⟨"red"⟩⟩]⟩]
        (.element "html" "" [] [] [])).value "color" = none ∧
      ((resolve [⟨[⟨"html", "id", ["c1", "c2"]⟩], [⟨"color", .text ⟨"red"⟩⟩]⟩]
        (.element "html" "" [] [] [])).value_or "color" (.text ⟨"NO VALUE"⟩)).print =
          some "NO VALUE" :=
  have hrules : ∀ (j : Nat) (r : Rule),
      [Rule.mk [⟨"html", "id", ["c1", "c2"]⟩] [⟨"color", .text ⟨"red"⟩⟩]][j]? = some r →
      ruleMatches r (.element "html" "" [] [] []) = true →
      ∀ d ∈ r.declarations, d.name ≠ "color" := by
    intro j r hj hm
    match j, hj with
    | 0, hj =>
      have : r = ⟨[⟨"html", "id", ["c1", "c2"]⟩], [⟨"color", .text ⟨"red"⟩⟩]⟩ := by
        simpa using hj.symm
      subst this
      exact absurd hm (by decide)
    | j + 1, hj => simp at hj
  have h := useless_rules_absent
    [⟨[⟨"html", "id", ["c1", "c2"]⟩], [⟨"color", .text ⟨"red"⟩⟩]⟩]
    (.element "html" "" [] [] []) "color" hrules
  ⟨h.1, (h.2 (.text ⟨"NO VALUE"⟩)).2⟩

/-- C9. Non-element nodes are never styled: whatever the style sheet, the
styled node standing at the position of a text or comment node of the document
tree has an empty property mapping, `value(p)` being absent for every `p`. -/
theorem non_element_unstyled (css : StyleSheet) (root : Node) (path : List Nat) (n : Node)
    (hn : root.descend path = some n) (hne : n.isElement = false) :
    ∃ sn, (resolve css root).descend path = some sn ∧ ∀ p, sn.value p = none := by
  refine ⟨resolve css n, ?_, ?_⟩
  · rw [descend_resolve, hn]; rfl
  · intro p
    rw [value_resolve, mapProps, hne]
    rfl

/-- C9, at the comment child of `<html><!-- comment! -->text!</html>` under the
style sheet `*{color:red;}`. -/
theorem non_element_unstyled_witness :
    ∃ sn, (resolve [⟨[⟨"", "", []⟩], [⟨"color", .text ⟨"red"⟩⟩]⟩]
        (.element "html" "" [] [] [.comment " comment! " [], .text "text!" []])).descend [0] =
          some sn ∧ ∀ p, sn.value p = none :=
  non_element_unstyled [⟨[⟨"", "", []⟩], [⟨"color", .text ⟨"red"⟩⟩]⟩]
    (.element "html" "" [] [] [.comment " comment! " [], .text "text!" []]) [0]
    (.comment " comment! " []) rfl rfl

/-- C10. Tree shape preservation: the children of the styled node of `d` are
the styled nodes of the children of `d`, one for each and in the same order,
each being what resolution yields for that child on its own; so the styled
tree has as many nodes as the document tree. -/
theorem tree_shape_preserved (css : StyleSheet) (d : Node) :
    (resolve css d).getChildren.length = d.getChildren.length ∧
      (∀ i : Nat, (resolve css d).getChildren[i]? = (d.getChildren[i]?).map (resolve css)) ∧
      (resolve css d).getChildren = d.getChildren.map (resolve css) ∧
      (resolve css d).size = d.size := by
  refine ⟨?_, ?_, getChildren_resolve css d, size_resolve css d⟩
  · rw [getChildren_resolve, List.length_map]
  · intro i
    rw [getChildren_resolve, List.getElem?_map]

/-! ## The rasteriser -/

open Canvas Display

theorem toPx_le_max {x : Dbl} {lo hi v : Nat} (h : toPx x lo hi = some v) : v ≤ hi := by
  unfold toPx at h
  cases hx : x.toU64 with
  | none => rw [hx] at h; simp at h
  | some u =>
    rw [hx] at h
    simp only [Option.some.injEq] at h
    rw [← h]
    exact Nat.min_le_left _ _

theorem renderRow_length (w : Nat) (color : ColorValue) (y : Nat) :
    ∀ (n x : Nat) (px px' : List ColorValue),
      renderRow w color y n x px = some px' → px'.length = px.length := by
  intro n
  induction n with
  | zero => intro x px px' h; simp only [renderRow, Option.some.injEq] at h; rw [← h]
  | succ n ih =>
    intro x px px' h
    simp only [renderRow, setPixel] at h
    split at h
    · simp at h
    · next q hq =>
      split at hq
      · simp only [Option.some.injEq] at hq
        rw [ih _ _ _ h, ← hq, List.length_set]
      · simp at hq

theorem renderRows_length (w : Nat) (color : ColorValue) (x0 x1 : Nat) :
    ∀ (m y : Nat) (px px' : List ColorValue),
      renderRows w color x0 x1 m y px = some px' → px'.length = px.length := by
  intro m
  induction m with
  | zero => intro y px px' h; simp only [renderRows, Option.some.injEq] at h; rw [← h]
  | succ m ih =>
    intro y px px' h
    simp only [renderRows] at h
    split at h
    · simp at h
    · next q hq => rw [ih _ _ _ h, renderRow_length _ _ _ _ _ _ _ hq]

/-- A completed `render` leaves width, height and buffer length as they were. -/
theorem render_shape (add : Dbl → Dbl → Dbl) (c c' : Canvas) (cmd : RectangleCmd)
    (h : render add c cmd = some c') :
    c'.width = c.width ∧ c'.height = c.height ∧ c'.pixels.length = c.pixels.length := by
  simp only [render] at h
  split at h
  · split at h
    · simp at h
    · next px' hpx =>
      simp only [Option.some.injEq] at h
      rw [← h]
      exact ⟨rfl, rfl, renderRows_length _ _ _ _ _ _ _ _ hpx⟩
  · simp at h

theorem renderAll_shape (add : Dbl → Dbl → Dbl) (cmds : List RectangleCmd) :
    ∀ (c c' : Canvas), renderAll add c cmds = some c' →
      c'.width = c.width ∧ c'.height = c.height ∧ c'.pixels.length = c.pixels.length := by
  induction cmds with
  | nil => intro c c' h; simp only [renderAll, Option.some.injEq] at h; rw [← h]; simp
  | cons cmd cmds ih =>
    intro c c' h
    simp only [renderAll] at h
    split at h
    · simp at h
    · next c1 hc1 =>
      obtain ⟨h1, h2, h3⟩ := ih c1 c' h
      obtain ⟨g1, g2, g3⟩ := render_shape add c c1 cmd hc1
      exact ⟨h1.trans g1, h2.trans g2, h3.trans g3⟩

/-- The inner loop, when the run `[x0, x0 + n)` of row offset `y * w` lies
inside the buffer: it completes and overwrites exactly that run. -/
theorem renderRow_spec (w : Nat) (color : ColorValue) (y : Nat) :
    ∀ (n x0 : Nat) (px : List ColorValue), x0 + n + y * w ≤ px.length → px.length < U64 →
      ∃ px', renderRow w color y n x0 px = some px' ∧ px'.length = px.length ∧
        ∀ i, px'[i]? =
          if x0 + y * w ≤ i ∧ i < x0 + n + y * w then some color else px[i]? := by
  intro n
  induction n with
  | zero =>
    intro x0 px _ _
    refine ⟨px, rfl, rfl, fun i => ?_⟩
    rw [if_neg]; omega
  | succ n ih =>
    intro x0 px hb hU
    have hidx : (x0 + y * w) % U64 = x0 + y * w := Nat.mod_eq_of_lt (by omega)
    have hlt : x0 + y * w < px.length := by omega
    obtain ⟨px', hrun, hlen, hget⟩ := ih (x0 + 1) (px.set (x0 + y * w) color)
      (by rw [List.length_set]; omega) (by rw [List.length_set]; exact hU)
    refine ⟨px', ?_, ?_, ?_⟩
    · simp only [renderRow, setPixel, hidx, hlt, if_true]
      exact hrun
    · rw [hlen, List.length_set]
    · intro i
      rw [hget i, List.getElem?_set]
      by_cases h1 : x0 + y * w = i
      · have hA : x0 + y * w ≤ i ∧ i < x0 + (n + 1) + y * w := by omega
        rw [if_pos h1, if_pos hlt, if_pos hA]
        split <;> rfl
      · rw [if_neg h1]
        by_cases h2 : x0 + 1 + y * w ≤ i ∧ i < x0 + 1 + n + y * w
        · rw [if_pos h2, if_pos (by omega)]
        · rw [if_neg h2, if_neg (by omega)]

/-- Row-major addressing: a pixel of row `y` lies in the run `[x0, x0 + n)` of
row `y0` iff `y = y0` and its column lies in `[x0, x0 + n)`. -/
theorem row_run_iff (w x0 n y0 x y : Nat) (hx : x < w) (hrun : x0 + n ≤ w) :
    (x0 + y0 * w ≤ x + y * w ∧ x + y * w < x0 + n + y0 * w) ↔
      (y = y0 ∧ x0 ≤ x ∧ x < x0 + n) := by
  rcases Nat.lt_trichotomy y y0 with h | h | h
  · have : (y + 1) * w ≤ y0 * w := Nat.mul_le_mul_right w h
    rw [Nat.add_mul, Nat.one_mul] at this
    constructor
    · intro hh; omega
    · intro hh; omega
  · subst h
    constructor
    · intro hh; exact ⟨rfl, by omega, by omega⟩
    · intro hh; omega
  · have : (y0 + 1) * w ≤ y * w := Nat.mul_le_mul_right w h
    rw [Nat.add_mul, Nat.one_mul] at this
    constructor
    · intro hh; omega
    · intro hh; omega

/-- The outer loop on a buffer of `w * h` pixels, for rows `[y0, y0 + m)` inside
the canvas and columns `[x0, x1)` with both edges at most `w`: it completes and
overwrites exactly the pixels of that box. -/
theorem renderRows_spec (w h : Nat) (color : ColorValue) (x0 x1 : Nat) (hx0 : x0 ≤ w)
    (hx1 : x1 ≤ w) :
    ∀ (m y0 : Nat) (px : List ColorValue), px.length = w * h → w * h < U64 → y0 + m ≤ h →
      ∃ px', renderRows w color x0 x1 m y0 px = some px' ∧ px'.length = px.length ∧
        ∀ x y, x < w → y < h → px'[x + y * w]? =
          if x0 ≤ x ∧ x < x1 ∧ y0 ≤ y ∧ y < y0 + m then some color else px[x + y * w]? := by
  intro m
  induction m with
  | zero =>
    intro y0 px _ _ _
    refine ⟨px, rfl, rfl, fun x y _ _ => ?_⟩
    rw [if_neg]; omega
  | succ m ih =>
    intro y0 px hlen hU hy
    have hrow : (y0 + 1) * w ≤ h * w := Nat.mul_le_mul_right w (by omega)
    rw [Nat.add_mul, Nat.one_mul] at hrow
    have hwh : w * h = h * w := Nat.mul_comm w h
    obtain ⟨px1, hrun1, hlen1, hget1⟩ := renderRow_spec w color y0 (x1 - x0) x0 px
      (by omega) (by omega)
    obtain ⟨px2, hrun2, hlen2, hget2⟩ := ih (y0 + 1) px1 (by omega) hU (by omega)
    refine ⟨px2, ?_, by omega, ?_⟩
    · simp only [renderRows, hrun1]
      exact hrun2
    · intro x y hx hy'
      rw [hget2 x y hx hy', hget1 (x + y * w)]
      have hiff := row_run_iff w x0 (x1 - x0) y0 x y hx (by omega)
      by_cases hA : x0 ≤ x ∧ x < x1 ∧ y0 + 1 ≤ y ∧ y < y0 + 1 + m
      · rw [if_pos hA, if_pos (by omega)]
      · rw [if_neg hA]
        by_cases hB : x0 + y0 * w ≤ x + y * w ∧ x + y * w < x0 + (x1 - x0) + y0 * w
        · rw [if_pos hB, if_pos]
          have := hiff.1 hB
          omega
        · rw [if_neg hB, if_neg]
          intro hC
          apply hB
          apply hiff.2
          omega

/-- Row-major addressing stays inside a buffer of `w * h` pixels. -/
theorem index_lt_size (w h x y : Nat) (hx : x < w) (hy : y < h) : x + y * w < w * h := by
  have h1 : (y + 1) * w ≤ h * w := Nat.mul_le_mul_right w hy
  rw [Nat.add_mul, Nat.one_mul] at h1
  rw [Nat.mul_comm w h]
  omega

theorem renderRows_zero_width (w : Nat) (color : ColorValue) (x0 x1 : Nat) (h : x1 ≤ x0) :
    ∀ (m y : Nat) (px : List ColorValue), renderRows w color x0 x1 m y px = some px := by
  have h0 : x1 - x0 = 0 := by omega
  intro m
  induction m with
  | zero => intro y px; rfl
  | succ m ih =>
    intro y px
    simp only [renderRows, h0, renderRow]
    exact ih (y + 1) px

/-- The outer loop for the columns `[x0, x1)` with `x1` at most `w`, on any
buffer that reaches to the end of that run in every row `[y0, y0 + m)`: it
completes and overwrites exactly the pixels of the box. -/
theorem renderRows_fit (w : Nat) (color : ColorValue) (x0 x1 : Nat) (hx1 : x1 ≤ w) :
    ∀ (m y0 : Nat) (px : List ColorValue), px.length < U64 →
      (∀ y, y0 ≤ y → y < y0 + m → x1 + y * w ≤ px.length) →
      ∃ px', renderRows w color x0 x1 m y0 px = some px' ∧ px'.length = px.length ∧
        ∀ x y, x < w → px'[x + y * w]? =
          if x0 ≤ x ∧ x < x1 ∧ y0 ≤ y ∧ y < y0 + m then some color else px[x + y * w]? := by
  intro m
  induction m with
  | zero =>
    intro y0 px _ _
    refine ⟨px, rfl, rfl, fun x y _ => ?_⟩
    rw [if_neg]; omega
  | succ m ih =>
    intro y0 px hU hfit
    have hrow := hfit y0 (Nat.le_refl _) (by omega)
    by_cases hlt : x0 < x1
    · obtain ⟨px1, hrun1, hlen1, hget1⟩ := renderRow_spec w color y0 (x1 - x0) x0 px
        (by omega) hU
      obtain ⟨px2, hrun2, hlen2, hget2⟩ := ih (y0 + 1) px1 (by omega)
        (fun y h1 h2 => by rw [hlen1]; exact hfit y (by omega) (by omega))
      refine ⟨px2, ?_, by omega, ?_⟩
      · simp only [renderRows, hrun1]
        exact hrun2
      · intro x y hx
        rw [hget2 x y hx, hget1 (x + y * w)]
        have hiff := row_run_iff w x0 (x1 - x0) y0 x y hx (by omega)
        by_cases hA : x0 ≤ x ∧ x < x1 ∧ y0 + 1 ≤ y ∧ y < y0 + 1 + m
        · rw [if_pos hA, if_pos (by omega)]
        · rw [if_neg hA]
          by_cases hB : x0 + y0 * w ≤ x + y * w ∧ x + y * w < x0 + (x1 - x0) + y0 * w
          · rw [if_pos hB, if_pos]
            have := hiff.1 hB
            omega
          · rw [if_neg hB, if_neg]
            intro hC
            apply hB
            apply hiff.2
            omega
    · refine ⟨px, renderRows_zero_width w color x0 x1 (by omega) _ _ _, rfl, fun x y _ => ?_⟩
      rw [if_neg]; omega

/-- A buffer of `w * h` pixels reaches to the end of the last row of every box
whose right edge is at most `w` and whose bottom edge is at most `h`. -/
theorem box_fits (w h x0 y0 x1 y1 len : Nat) (hx1 : x1 ≤ w) (hy1 : y1 ≤ h)
    (hfit : len = w * h ∨ (x0 < x1 → y0 < y1 → x1 + (y1 - 1) * w ≤ len)) :
    x0 < x1 → y0 < y1 → x1 + (y1 - 1) * w ≤ len := by
  intro hx hy
  rcases hfit with hinv | hfit
  · have h1 : (y1 - 1 + 1) * w ≤ h * w := Nat.mul_le_mul_right w (by omega)
    rw [Nat.add_mul, Nat.one_mul] at h1
    rw [hinv, Nat.mul_comm w h]
    omega
  · exact hfit hx hy

/-- The two loops of `render` with the right edge at most `w`, on any buffer
that reaches to the end of the last row of the box `[x0, x1) x [y0, y1)` when the
box is not empty: they complete and overwrite exactly the pixels of the box. -/
theorem renderRows_box (w : Nat) (color : ColorValue) (x0 y0 x1 y1 : Nat)
    (px : List ColorValue) (hx1 : x1 ≤ w) (hU : px.length < U64)
    (hfit : x0 < x1 → y0 < y1 → x1 + (y1 - 1) * w ≤ px.length) :
    ∃ px', renderRows w color x0 x1 (y1 - y0) y0 px = some px' ∧ px'.length = px.length ∧
      ∀ x y, x < w → px'[x + y * w]? =
        if x0 ≤ x ∧ x < x1 ∧ y0 ≤ y ∧ y < y1 then some color else px[x + y * w]? := by
  by_cases hx : x0 < x1
  · obtain ⟨px', hrun, hlen, hget⟩ := renderRows_fit w color x0 x1 hx1 (y1 - y0) y0 px hU
      (fun y h1 h2 => by
        have hy : y0 < y1 := by omega
        have hb := hfit hx hy
        have h3 : y * w ≤ (y1 - 1) * w := Nat.mul_le_mul_right w (by omega)
        omega)
    refine ⟨px', hrun, hlen, fun x y hxw => ?_⟩
    rw [hget x y hxw]
    by_cases hA : x0 ≤ x ∧ x < x1 ∧ y0 ≤ y ∧ y < y1
    · rw [if_pos hA, if_pos (by omega)]
    · rw [if_neg hA, if_neg (by omega)]
  · refine ⟨px, renderRows_zero_width w color x0 x1 (by omega) _ _ _, rfl, fun x y _ => ?_⟩
    rw [if_neg]; omega

/-- The box painted by `render`, with the four edges returned by `toPx`, on a
canvas whose buffer holds `width * height` pixels or reaches to the end of the
last row of the box; the buffer keeps its length. -/
theorem render_box (add : Dbl → Dbl → Dbl) (c : Canvas) (cmd : RectangleCmd)
    (x0 y0 x1 y1 : Nat) (hU : c.pixels.length < U64)
    (hx0 : toPx cmd.getRectangle.origin.x 0 c.width = some x0)
    (hy0 : toPx cmd.getRectangle.origin.y 0 c.height = some y0)
    (hx1 : toPx (add cmd.getRectangle.origin.x cmd.getRectangle.width) 0 c.width = some x1)
    (hy1 : toPx (add cmd.getRectangle.origin.y cmd.getRectangle.height) 0 c.height = some y1)
    (hfit : c.pixels.length = c.width * c.height ∨
      (x0 < x1 → y0 < y1 → x1 + (y1 - 1) * c.width ≤ c.pixels.length)) :
    ∃ c', render add c cmd = some c' ∧ c'.width = c.width ∧ c'.height = c.height ∧
      c'.pixels.length = c.pixels.length ∧
      ∀ x y, x < c.width →
        c'.pixelAt x y =
          if x0 ≤ x ∧ x < x1 ∧ y0 ≤ y ∧ y < y1 then some cmd.getColor else c.pixelAt x y := by
  have bx1 := toPx_le_max hx1
  have by1 := toPx_le_max hy1
  obtain ⟨px', hrun, hlen, hget⟩ := renderRows_box c.width cmd.getColor x0 y0 x1 y1 c.pixels
    bx1 hU (box_fits c.width c.height x0 y0 x1 y1 _ bx1 by1 hfit)
  refine ⟨{ c with pixels := px' }, ?_, rfl, rfl, hlen, ?_⟩
  · simp only [render, hx0, hy0, hx1, hy1, hrun]
  · intro x y hx
    simp only [pixelAt]
    exact hget x y hx

/-- C4, as amended. RectangleCmd postcondition: on every canvas (its buffer a
vector of fewer than `2 ^ 64` pixels of any colours) that holds
`width * height` pixels or, more generally, reaches to the end of the last row
of the box (`x1 + (y1 - 1) * width` is at most the number of pixels when the box
is not empty), the two loops of `render`, run between the clamped edges
`x0 = min(width, max(0, v0))`, `y0 = min(height, max(0, v1))`,
`x1 = min(width, max(0, v2))`, `y1 = min(height, max(0, v3))` of whatever
values `v0, v1, v2, v3` the four conversions yield, complete, keep the length of
the buffer, set every pixel `(x, y)` with `x0 <= x < x1` and `y0 <= y < y1` to
the command's colour and leave every other pixel `(x, y)` with `x < width` at
its previous value; and whenever `toPx` returns the four edges, `render` itself
completes with that effect on the pixels of the canvas and leaves width and
height as they were. -/
theorem render_rectangle_postcondition (add : Dbl → Dbl → Dbl) (c : Canvas)
    (cmd : RectangleCmd) (hU : c.pixels.length < U64) :
    (∀ v0 v1 v2 v3 x0 y0 x1 y1 : Nat,
        x0 = Nat.min c.width (Nat.max 0 v0) → y0 = Nat.min c.height (Nat.max 0 v1) →
        x1 = Nat.min c.width (Nat.max 0 v2) → y1 = Nat.min c.height (Nat.max 0 v3) →
        (c.pixels.length = c.width * c.height ∨
          (x0 < x1 → y0 < y1 → x1 + (y1 - 1) * c.width ≤ c.pixels.length)) →
        ∃ pixels', renderRows c.width cmd.getColor x0 x1 (y1 - y0) y0 c.pixels = some pixels' ∧
          pixels'.length = c.pixels.length ∧
          ∀ x y, x < c.width →
            pixels'[x + y * c.width]? =
              if x0 ≤ x ∧ x < x1 ∧ y0 ≤ y ∧ y < y1 then some cmd.getColor
              else c.pixels[x + y * c.width]?) ∧
      (∀ x0 y0 x1 y1 : Nat,
        toPx cmd.getRectangle.origin.x 0 c.width = some x0 →
        toPx cmd.getRectangle.origin.y 0 c.height = some y0 →
        toPx (add cmd.getRectangle.origin.x cmd.getRectangle.width) 0 c.width = some x1 →
        toPx (add cmd.getRectangle.origin.y cmd.getRectangle.height) 0 c.height = some y1 →
        (c.pixels.length = c.width * c.height ∨
          (x0 < x1 → y0 < y1 → x1 + (y1 - 1) * c.width ≤ c.pixels.length)) →
        ∃ c', render add c cmd = some c' ∧ c'.width = c.width ∧ c'.height = c.height ∧
          ∀ x y, x < c.width →
            c'.pixelAt x y =
              if x0 ≤ x ∧ x < x1 ∧ y0 ≤ y ∧ y < y1 then some cmd.getColor
              else c.pixelAt x y) := by
  refine ⟨?_, ?_⟩
  · intro v0 v1 v2 v3 x0 y0 x1 y1 _ _ e2 e3 hfit
    have bx1 : x1 ≤ c.width := e2 ▸ Nat.min_le_left _ _
    have by1 : y1 ≤ c.height := e3 ▸ Nat.min_le_left _ _
    exact renderRows_box c.width cmd.getColor x0 y0 x1 y1 c.pixels bx1 hU
      (box_fits c.width c.height x0 y0 x1 y1 _ bx1 by1 hfit)
  · intro x0 y0 x1 y1 hx0 hy0 hx1 hy1 hfit
    obtain ⟨c', hr, hw, hh, _, hp⟩ := render_box add c cmd x0 y0 x1 y1 hU hx0 hy0 hx1 hy1 hfit
    exact ⟨c', hr, hw, hh, hp⟩

/-- C4, at the rectangle with origin `(1, 1)` and size `(2, 2)` on a blank
4x4 canvas: the box is `[1, 3) x [1, 3)`; and at the rectangle with origin
`(0, 0)` and size `(1, 1)` on `Canvas(2 ^ 62 + 1, 4)`, whose buffer of 4 pixels
does not hold `width * height` pixels but contains the box `[0, 1) x [0, 1)`. -/
theorem render_rectangle_postcondition_witness :
    (∃ c', render Dbl.addInt (Canvas.blank 4 4)
        ⟨⟨⟨Dbl.ofNat 1, Dbl.ofNat 1⟩, Dbl.ofNat 2, Dbl.ofNat 2⟩, ⟨10, 20, 30, 255⟩⟩ = some c' ∧
      c'.width = (Canvas.blank 4 4).width ∧ c'.height = (Canvas.blank 4 4).height ∧
      ∀ x y, x < (Canvas.blank 4 4).width →
        c'.pixelAt x y =
          if 1 ≤ x ∧ x < 3 ∧ 1 ≤ y ∧ y < 3 then
            some (RectangleCmd.getColor
              ⟨⟨⟨Dbl.ofNat 1, Dbl.ofNat 1⟩, Dbl.ofNat 2, Dbl.ofNat 2⟩, ⟨10, 20, 30, 255⟩⟩)
          else (Canvas.blank 4 4).pixelAt x y) ∧
      (Canvas.blank 4611686018427387905 4).pixels.length = 4 ∧
      ∃ c', render Dbl.addInt (Canvas.blank 4611686018427387905 4)
          ⟨⟨⟨Dbl.ofNat 0, Dbl.ofNat 0⟩, Dbl.ofNat 1, Dbl.ofNat 1⟩, ⟨10, 20, 30, 255⟩⟩ = some c' ∧
        c'.width = (Canvas.blank 4611686018427387905 4).width ∧
        c'.height = (Canvas.blank 4611686018427387905 4).height ∧
        ∀ x y, x < (Canvas.blank 4611686018427387905 4).width →
          c'.pixelAt x y =
            if 0 ≤ x ∧ x < 1 ∧ 0 ≤ y ∧ y < 1 then
              some (RectangleCmd.getColor
                ⟨⟨⟨Dbl.ofNat 0, Dbl.ofNat 0⟩, Dbl.ofNat 1, Dbl.ofNat 1⟩, ⟨10, 20, 30, 255⟩⟩)
            else (Canvas.blank 4611686018427387905 4).pixelAt x y :=
  ⟨(render_rectangle_postcondition Dbl.addInt (Canvas.blank 4 4)
      ⟨⟨⟨Dbl.ofNat 1, Dbl.ofNat 1⟩, Dbl.ofNat 2, Dbl.ofNat 2⟩, ⟨10, 20, 30, 255⟩⟩
      (by decide)).2 1 1 3 3 (by decide) (by decide) (by decide) (by decide)
      (Or.inl (by decide)),
    by decide,
    (render_rectangle_postcondition Dbl.addInt (Canvas.blank 4611686018427387905 4)
      ⟨⟨⟨Dbl.ofNat 0, Dbl.ofNat 0⟩, Dbl.ofNat 1, Dbl.ofNat 1⟩, ⟨10, 20, 30, 255⟩⟩
      (by decide)).2 0 0 1 1 (by decide) (by decide) (by decide) (by decide)
      (Or.inr (by decide))⟩

/-- C4 as stated fails. On `Canvas(2 ^ 32, 2 ^ 32)`, whose buffer is empty, the
command with origin `(0, 0)` and size `(1, 1)` has the clamped box
`[0, 1) x [0, 1)`, but the write to `pixels[0]` is out of bounds: `render` has no
result, and there is no canvas afterwards on which pixel `(0, 0)` holds the
colour. On a 4x4 canvas the command with origin `(-2, -2)` and size `(4, 4)` has
no left edge, the conversion of `-2` being undefined, and `render` has no result
either. -/
theorem render_rectangle_overflow :
    (Canvas.blank 4294967296 4294967296).width = 4294967296 ∧
      (Canvas.blank 4294967296 4294967296).height = 4294967296 ∧
      toPx (Dbl.ofNat 0) 0 4294967296 = some 0 ∧
      toPx (Dbl.addInt (Dbl.ofNat 0) (Dbl.ofNat 1)) 0 4294967296 = some 1 ∧
      render Dbl.addInt (Canvas.blank 4294967296 4294967296)
        ⟨⟨⟨Dbl.ofNat 0, Dbl.ofNat 0⟩, Dbl.ofNat 1, Dbl.ofNat 1⟩, ⟨10, 20, 30, 255⟩⟩ = none ∧
      (¬ ∃ c', render Dbl.addInt (Canvas.blank 4294967296 4294967296)
          ⟨⟨⟨Dbl.ofNat 0, Dbl.ofNat 0⟩, Dbl.ofNat 1, Dbl.ofNat 1⟩, ⟨10, 20, 30, 255⟩⟩ = some c' ∧
        c'.pixelAt 0 0 = some ⟨10, 20, 30, 255⟩) ∧
      toPx (Dbl.negOfNat 2) 0 4 = none ∧
      render Dbl.addInt (Canvas.blank 4 4)
        ⟨⟨⟨Dbl.negOfNat 2, Dbl.negOfNat 2⟩, Dbl.ofNat 4, Dbl.ofNat 4⟩, ⟨10, 20, 30, 255⟩⟩ =
        none := by
  have h : render Dbl.addInt (Canvas.blank 4294967296 4294967296)
      ⟨⟨⟨Dbl.ofNat 0, Dbl.ofNat 0⟩, Dbl.ofNat 1, Dbl.ofNat 1⟩, ⟨10, 20, 30, 255⟩⟩ = none := by
    decide
  refine ⟨rfl, rfl, by decide, by decide, h, ?_, by decide, by decide⟩
  rintro ⟨c', hc, _⟩
  rw [h] at hc
  exact Option.noConfusion hc

/-- C5. Evaluation at the rectangle of the spec: the conversion of the
coordinate `-5` has no defined result, so neither has `toPx(-5, 0, 4)` (the
claimed value is `0`), nor the rendering of the rectangle with origin
`(-5, -5)` and size `(10, 10)` on a 4x4 canvas (the claim is that it paints all
16 pixels). -/
theorem toPx_negative_undefined :
    Dbl.toU64 (Dbl.negOfNat 5) = none ∧
      toPx (Dbl.negOfNat 5) 0 4 ≠ some 0 ∧
      ∀ (add : Dbl → Dbl → Dbl) (color : ColorValue),
        render add (Canvas.blank 4 4)
          ⟨⟨⟨Dbl.negOfNat 5, Dbl.negOfNat 5⟩, Dbl.ofNat 10, Dbl.ofNat 10⟩, color⟩ = none := by
  refine ⟨by decide, by decide, ?_⟩
  intro add color
  have h : toPx (Dbl.negOfNat 5) 0 4 = none := by decide
  simp [render, Canvas.blank, h]

/-- On the domain where the conversion is defined (`-1 < x < 2 ^ 64`), `toPx`
clamps as intended: `0` below zero, `max` from `max` on, the truncation of `x`
in between. -/
theorem toPx_of_defined (x : Dbl) (hi v : Nat) (h : x.toU64 = some v) :
    toPx x 0 hi = some (if x.isNegative = true then 0 else if x.geNat hi = true then hi else v) := by
  unfold toPx
  rw [h]
  simp only [Option.some.injEq]
  cases x with
  | nan => simp [Dbl.toU64] at h
  | inf s => simp [Dbl.toU64] at h
  | fin s m k =>
    have hk : 0 < 2 ^ k := Nat.two_pow_pos k
    cases s with
    | true =>
      simp only [Dbl.toU64, if_true] at h
      split at h
      · next ht =>
        simp only [Option.some.injEq] at h
        subst h
        simp only [Dbl.isNegative, Dbl.geNat, Bool.true_and, decide_eq_true_eq, if_true]
        split
        · simp
        · split
          · next h2 => simp [h2.2]
          · simp
      · simp at h
    | false =>
      simp only [Dbl.toU64, Bool.false_eq_true, if_false] at h
      split at h
      · simp only [Option.some.injEq] at h
        subst h
        simp only [Dbl.isNegative, Dbl.geNat, Bool.false_and, Bool.false_eq_true, if_false,
          decide_eq_true_eq]
        have hdiv : hi * 2 ^ k ≤ m ↔ hi ≤ Dbl.truncMag m k := by
          unfold Dbl.truncMag
          exact (Nat.le_div_iff_mul_le hk).symm
        by_cases hge : hi * 2 ^ k ≤ m
        · have := hdiv.1 hge
          rw [if_pos hge]
          simp only [Nat.min_def, Nat.max_def]
          split <;> (try split) <;> omega
        · have : ¬ hi ≤ Dbl.truncMag m k := fun hh => hge (hdiv.2 hh)
          rw [if_neg hge]
          simp only [Nat.min_def, Nat.max_def]
          split <;> (try split) <;> omega
      · simp at h

/-! ## Pixel export -/

theorem foldl_channels (l : List ColorValue) (init : List (Fin 256)) :
    l.foldl (fun rawPixels pixel => rawPixels ++ pixel.channels) init =
      init ++ l.foldl (fun rawPixels pixel => rawPixels ++ pixel.channels) [] := by
  induction l generalizing init with
  | nil => simp
  | cons p ps ih =>
    simp only [List.foldl_cons, List.nil_append]
    rw [ih (init ++ p.channels), ih p.channels, List.append_assoc]

theorem getPixels_cons (w h : Nat) (p : ColorValue) (ps : List ColorValue) :
    getPixels ⟨w, h, p :: ps⟩ = p.channels ++ getPixels ⟨w, h, ps⟩ := by
  simp only [getPixels, List.foldl_cons, List.nil_append]
  exact foldl_channels ps p.channels

theorem getPixels_length (w h : Nat) (ps : List ColorValue) :
    (getPixels ⟨w, h, ps⟩).length = ps.length * 4 := by
  induction ps with
  | nil => rfl
  | cons p ps ih =>
    rw [getPixels_cons, List.length_append, ih]
    simp only [ColorValue.channels, List.length_cons, List.length_nil]
    omega

theorem getPixels_channels (w h : Nat) (ps : List ColorValue) :
    ∀ (i : Nat) (px : ColorValue), ps[i]? = some px →
      (getPixels ⟨w, h, ps⟩)[4 * i]? = some px.r ∧
      (getPixels ⟨w, h, ps⟩)[4 * i + 1]? = some px.g ∧
      (getPixels ⟨w, h, ps⟩)[4 * i + 2]? = some px.b ∧
      (getPixels ⟨w, h, ps⟩)[4 * i + 3]? = some px.a := by
  induction ps with
  | nil => intro i px h; simp at h
  | cons p ps ih =>
    intro i px hi
    rw [getPixels_cons]
    cases i with
    | zero =>
      simp only [List.getElem?_cons_zero, Option.some.injEq] at hi
      subst hi
      simp [ColorValue.channels]
    | succ i =>
      simp only [List.getElem?_cons_succ] at hi
      obtain ⟨h0, h1, h2, h3⟩ := ih i px hi
      have hlen : p.channels.length = 4 := rfl
      refine ⟨?_, ?_, ?_, ?_⟩
      · rw [List.getElem?_append_right (by omega), hlen, ← h0]; congr 1
      · rw [List.getElem?_append_right (by omega), hlen, ← h1]; congr 1
      · rw [List.getElem?_append_right (by omega), hlen, ← h2]; congr 1
      · rw [List.getElem?_append_right (by omega), hlen, ← h3]; congr 1

/-- C6, as amended. Pixel export: for every canvas `c0`, as it stands or after
any sequence of completed `render` calls, width and height are those of `c0`
and `getPixels()` is a sequence of exactly `4 * n` bytes, `n` being the number
of pixels in the buffer of `c0`, in which the bytes `4i, 4i+1, 4i+2, 4i+3` are
the `r, g, b, a` channels of pixel `i` of the buffer, for every `i < n`. When
the buffer of `c0` holds `width * height` pixels these are exactly
`width * height * 4` bytes, those from `4 * (x + y * width)` on being the
channels of the pixel at column `x` of row `y`; a canvas built blank with
`w * h < 2 ^ 64` is such a canvas, with `w * h * 4` bytes and the channels of
pixel `i` for every `i < w * h`. -/
theorem getPixels_export (add : Dbl → Dbl → Dbl) (c0 c : Canvas) (cmds : List RectangleCmd)
    (hrun : renderAll add c0 cmds = some c) :
    c.width = c0.width ∧ c.height = c0.height ∧
      (getPixels c).length = c0.pixels.length * 4 ∧
      (∀ i, i < c0.pixels.length →
        ∃ px, c.pixels[i]? = some px ∧
          (getPixels c)[4 * i]? = some px.r ∧ (getPixels c)[4 * i + 1]? = some px.g ∧
          (getPixels c)[4 * i + 2]? = some px.b ∧ (getPixels c)[4 * i + 3]? = some px.a) ∧
      (c0.pixels.length = c0.width * c0.height →
        (getPixels c).length = c0.width * c0.height * 4 ∧
        ∀ x y, x < c0.width → y < c0.height →
          ∃ px, c.pixelAt x y = some px ∧
            (getPixels c)[4 * (x + y * c0.width)]? = some px.r ∧
            (getPixels c)[4 * (x + y * c0.width) + 1]? = some px.g ∧
            (getPixels c)[4 * (x + y * c0.width) + 2]? = some px.b ∧
            (getPixels c)[4 * (x + y * c0.width) + 3]? = some px.a) ∧
      (∀ w h, w * h < U64 → c0 = Canvas.blank w h →
        c.width = w ∧ c.height = h ∧ (getPixels c).length = w * h * 4 ∧
        ∀ i, i < w * h →
          ∃ px, c.pixels[i]? = some px ∧
            (getPixels c)[4 * i]? = some px.r ∧ (getPixels c)[4 * i + 1]? = some px.g ∧
            (getPixels c)[4 * i + 2]? = some px.b ∧ (getPixels c)[4 * i + 3]? = some px.a) := by
  obtain ⟨hw, hh, hlen⟩ := renderAll_shape add cmds c0 c hrun
  obtain ⟨w, h, ps⟩ := c
  simp only at hw hh hlen
  have hbytes : ∀ i, i < c0.pixels.length →
      ∃ px, ps[i]? = some px ∧
        (getPixels ⟨w, h, ps⟩)[4 * i]? = some px.r ∧
        (getPixels ⟨w, h, ps⟩)[4 * i + 1]? = some px.g ∧
        (getPixels ⟨w, h, ps⟩)[4 * i + 2]? = some px.b ∧
        (getPixels ⟨w, h, ps⟩)[4 * i + 3]? = some px.a := by
    intro i hi
    have hi' : i < ps.length := by omega
    exact ⟨ps[i], List.getElem?_eq_getElem hi',
      getPixels_channels w h ps i ps[i] (List.getElem?_eq_getElem hi')⟩
  refine ⟨hw, hh, ?_, hbytes, ?_, ?_⟩
  · rw [getPixels_length, hlen]
  · intro hinv
    refine ⟨by rw [getPixels_length, hlen, hinv], ?_⟩
    intro x y hx hy
    have hi := index_lt_size c0.width c0.height x y hx hy
    simp only [pixelAt, hw]
    exact hbytes (x + y * c0.width) (by omega)
  · intro w' h' hU hc0
    subst hc0
    have hn : (Canvas.blank w' h').pixels.length = w' * h' := by
      simp [Canvas.blank, Nat.mod_eq_of_lt hU]
    refine ⟨hw, hh, by rw [getPixels_length, hlen, hn], ?_⟩
    intro i hi
    exact hbytes i (by omega)

/-- C6, at a blank 2x2 canvas after one `render` call. -/
theorem getPixels_export_witness :
    ∃ c, renderAll Dbl.addInt (Canvas.blank 2 2)
        [⟨⟨⟨Dbl.ofNat 0, Dbl.ofNat 0⟩, Dbl.ofNat 1, Dbl.ofNat 1⟩, ⟨1, 2, 3, 4⟩⟩] = some c ∧
      (getPixels c).length = 2 * 2 * 4 ∧ (getPixels c)[4 * 0 + 2]? = some 3 ∧
      (getPixels c)[4 * 3 + 3]? = some 0 :=
  have hrun : renderAll Dbl.addInt (Canvas.blank 2 2)
      [⟨⟨⟨Dbl.ofNat 0, Dbl.ofNat 0⟩, Dbl.ofNat 1, Dbl.ofNat 1⟩, ⟨1, 2, 3, 4⟩⟩] =
      some ⟨2, 2, [⟨1, 2, 3, 4⟩, ⟨255, 255, 255, 0⟩, ⟨255, 255, 255, 0⟩,
        ⟨255, 255, 255, 0⟩]⟩ := by decide
  have h := getPixels_export Dbl.addInt (Canvas.blank 2 2) _ _ hrun
  ⟨_, hrun, (h.2.2.2.2.2 2 2 (by decide) rfl).2.2.1, by decide, by decide⟩

/-- C6 as stated fails: `Canvas(2 ^ 32, 2 ^ 32)` has width and height `2 ^ 32`
and an empty buffer, so `getPixels()` returns no byte at all instead of
`2 ^ 32 * 2 ^ 32 * 4` bytes, and pixel `0` has no bytes. -/
theorem getPixels_overflow :
    (Canvas.blank 4294967296 4294967296).width = 4294967296 ∧
      (Canvas.blank 4294967296 4294967296).height = 4294967296 ∧
      (getPixels (Canvas.blank 4294967296 4294967296)).length = 0 ∧
      ¬ ((getPixels (Canvas.blank 4294967296 4294967296)).length =
        4294967296 * 4294967296 * 4) ∧
      (getPixels (Canvas.blank 4294967296 4294967296))[4 * 0]? = none := by
  decide

/-- The constructor establishes the data-model invariant when the pixel count
`width * height` fits `uint64_t`. -/
theorem blank_pixels_length (w h : Nat) (hU : w * h < U64) :
    (Canvas.blank w h).pixels.length = (Canvas.blank w h).width * (Canvas.blank w h).height := by
  simp [Canvas.blank, Nat.mod_eq_of_lt hU]

/-! ## Printing colours and selectors -/

set_option maxRecDepth 100000 in
theorem repr_eq_decimalNumeral : ∀ n : Fin 256, Nat.repr n.val = decimalNumeral n.val := by
  decide

set_option maxRecDepth 100000 in
theorem decimalNumeral_digits : ∀ n : Fin 256,
    (decimalNumeral n.val).data.all Char.isDigit = true ∧
      ((decimalNumeral n.val).data.head? = some '0' → n.val = 0) ∧
      (decimalNumeral n.val).data.foldl (fun acc ch => 10 * acc + (ch.toNat - 48)) 0 = n.val := by
  decide

/-- C12. Color printing: for all channel values `r, g, b, a`,
`ColorValue(r, g, b, a).print()` is `"rgba("`, the decimal numerals of the four
channels separated by `", "`, and `")"`; each numeral consists of decimal
digits only, has no leading zero and reads back as the channel's value; and
`ColorValue(229, 229, 229, 255)` prints `rgba(229, 229, 229, 255)`. -/
theorem color_print (c : ColorValue) :
    c.print = "rgba(" ++ decimalNumeral c.r.val ++ ", " ++ decimalNumeral c.g.val ++ ", " ++
        decimalNumeral c.b.val ++ ", " ++ decimalNumeral c.a.val ++ ")" ∧
      (∀ n : Fin 256,
        (decimalNumeral n.val).data.all Char.isDigit = true ∧
          ((decimalNumeral n.val).data.head? = some '0' → n.val = 0) ∧
          (decimalNumeral n.val).data.foldl (fun acc ch => 10 * acc + (ch.toNat - 48)) 0 =
            n.val) ∧
      (ColorValue.mk 229 229 229 255).print = "rgba(229, 229, 229, 255)" := by
  refine ⟨?_, decimalNumeral_digits, by decide⟩
  simp only [ColorValue.print, repr_eq_decimalNumeral]

theorem string_append_eq_empty (a b : String) : a ++ b = "" ↔ a = "" ∧ b = "" := by
  simp [String.ext_iff, String.data_append]

theorem foldl_classes (klass : List String) (init : String) :
    klass.foldl (fun acc cl => acc ++ "." ++ cl) init =
      init ++ klass.foldr (fun cl rest => "." ++ cl ++ rest) "" := by
  induction klass generalizing init with
  | nil => simp
  | cons c cs ih =>
    simp only [List.foldl_cons, List.foldr_cons]
    rw [ih]
    simp only [String.append_assoc]

theorem classes_eq_empty (klass : List String) :
    klass.foldr (fun cl rest => "." ++ cl ++ rest) "" = "" ↔ klass = [] := by
  cases klass with
  | nil => simp
  | cons c cs =>
    simp only [List.foldr_cons, string_append_eq_empty]
    constructor
    · intro h; exact absurd h.1.1 (by decide)
    · intro h; exact absurd h (by simp)

/-- C13. Selector printing: `print()` never returns the empty string; it
returns `"*"` when tag and id are empty and there are no classes, and otherwise
the tag, followed by `"#"` and the id when the id is non-empty, followed by
`"."` and the class for each class in list order; so the empty selector prints
`*` and `html#id.class1.class2` prints as written. -/
theorem selector_print (s : Selector) :
    s.print ≠ "" ∧
      (s.tag = "" ∧ s.id = "" ∧ s.klass = [] → s.print = "*") ∧
      (¬ (s.tag = "" ∧ s.id = "" ∧ s.klass = []) →
        s.print = s.tag ++ (if s.id = "" then "" else "#" ++ s.id) ++
          s.klass.foldr (fun cl rest => "." ++ cl ++ rest) "") ∧
      (Selector.mk "" "" []).print = "*" ∧
      (Selector.mk "html" "id" ["class1", "class2"]).print = "html#id.class1.class2" := by
  have hres : s.tag ++ (if s.id.isEmpty = true then "" else "#" ++ s.id) ++
      s.klass.foldl (fun acc cl => acc ++ "." ++ cl) "" =
      s.tag ++ (if s.id = "" then "" else "#" ++ s.id) ++
        s.klass.foldr (fun cl rest => "." ++ cl ++ rest) "" := by
    rw [foldl_classes]
    simp [isEmpty_iff_eq_empty]
  have hempty : s.tag ++ (if s.id = "" then "" else "#" ++ s.id) ++
        s.klass.foldr (fun cl rest => "." ++ cl ++ rest) "" = "" ↔
      (s.tag = "" ∧ s.id = "" ∧ s.klass = []) := by
    rw [string_append_eq_empty, string_append_eq_empty, classes_eq_empty]
    by_cases hid : s.id = ""
    · simp [hid]
    · simp only [hid, if_false, string_append_eq_empty]
      constructor
      · intro h; exact absurd h.1.2.1 (by decide)
      · intro h; exact absurd h.2.1 (by simp)
  have hp : s.print =
      if s.tag ++ (if s.id = "" then "" else "#" ++ s.id) ++
          s.klass.foldr (fun cl rest => "." ++ cl ++ rest) "" = "" then "*"
      else s.tag ++ (if s.id = "" then "" else "#" ++ s.id) ++
          s.klass.foldr (fun cl rest => "." ++ cl ++ rest) "" := by
    have h0 : s.print =
        if (s.tag ++ (if s.id.isEmpty = true then "" else "#" ++ s.id) ++
          s.klass.foldl (fun acc cl => acc ++ "." ++ cl) "").isEmpty = true then "*"
        else s.tag ++ (if s.id.isEmpty = true then "" else "#" ++ s.id) ++
          s.klass.foldl (fun acc cl => acc ++ "." ++ cl) "" := rfl
    rw [h0, hres]
    by_cases he : s.tag ++ (if s.id = "" then "" else "#" ++ s.id) ++
        s.klass.foldr (fun cl rest => "." ++ cl ++ rest) "" = ""
    · rw [if_pos he, if_pos ((isEmpty_iff_eq_empty _).2 he)]
    · rw [if_neg he, if_neg (fun h => he ((isEmpty_iff_eq_empty _).1 h))]
  rw [hp]
  refine ⟨?_, ?_, ?_, by decide, by decide⟩
  · by_cases he : s.tag ++ (if s.id = "" then "" else "#" ++ s.id) ++
        s.klass.foldr (fun cl rest => "." ++ cl ++ rest) "" = ""
    · rw [if_pos he]; decide
    · rw [if_neg he]; exact he
  · intro h
    rw [if_pos (hempty.2 h)]
  · intro h
    rw [if_neg (fun he => h (hempty.1 he))]

/-! ## Printing unit values -/

theorem find_point (I F : List Char) (hI : '.' ∉ I) : find (I ++ '.' :: F) '.' = I.length := by
  have h : List.indexOf '.' (I ++ '.' :: F) = I.length := by
    rw [List.indexOf_append_of_not_mem hI, List.indexOf_cons_self]
    rfl
  unfold find
  rw [h, if_pos]
  simp

theorem find_last_not_of_point (I F : List Char) :
    find_last_not_of (I ++ '.' :: F) '0' =
      I.length + (F.rdropWhile (fun c => c == '0')).length := by
  have hrev : (I ++ '.' :: F).reverse = F.reverse ++ ('.' :: I.reverse) := by simp
  have hdrop : ((I ++ '.' :: F).reverse.dropWhile (fun d => d == '0')).length =
      I.length + (F.rdropWhile (fun c => c == '0')).length + 1 := by
    rw [hrev, List.dropWhile_append]
    have hpt : ('.' :: I.reverse).dropWhile (fun d => d == '0') = '.' :: I.reverse := by
      rw [List.dropWhile_cons_of_neg (by decide)]
    split
    · next hemp =>
      rw [hpt]
      have : (F.reverse.dropWhile (fun d => d == '0')) = [] := by
        simpa [List.isEmpty_iff] using hemp
      simp [List.rdropWhile, this]
    · simp [List.rdropWhile]
      omega
  unfold find_last_not_of
  rw [hdrop]

theorem strip_at_point (I F : List Char) (hI : '.' ∉ I)
    (hlen : (I ++ '.' :: F).length < npos) :
    erase (I ++ '.' :: F)
        ((find_last_not_of (I ++ '.' :: F) '0' +
          (if find_last_not_of (I ++ '.' :: F) '0' = find (I ++ '.' :: F) '.' then 0 else 1)) %
            U64) =
      some (I ++ strippedFraction F) := by
  rw [find_point I F hI, find_last_not_of_point]
  have hnpos : npos < U64 := by decide
  have hpre : F.rdropWhile (fun c => c == '0') <+: F := List.rdropWhile_prefix _ _
  have hle : (F.rdropWhile (fun c => c == '0')).length ≤ F.length := hpre.length_le
  simp only [List.length_append, List.length_cons] at hlen
  by_cases hz : F.rdropWhile (fun c => c == '0') = []
  · have hall : F.all (fun c => c == '0') = true := by
      rw [List.all_eq_true]
      exact List.rdropWhile_eq_nil_iff.1 hz
    rw [hz]
    simp only [List.length_nil, Nat.add_zero, if_true]
    rw [Nat.mod_eq_of_lt (by omega)]
    simp [erase, strippedFraction, hall]
  · have hall : ¬ F.all (fun c => c == '0') = true := by
      rw [List.all_eq_true]
      exact fun h => hz (List.rdropWhile_eq_nil_iff.2 h)
    have hpos : 0 < (F.rdropWhile (fun c => c == '0')).length := List.length_pos.2 hz
    rw [if_neg (by omega), Nat.mod_eq_of_lt (by omega)]
    simp only [erase, strippedFraction, hall, List.length_append, List.length_cons]
    rw [if_pos (by omega)]
    obtain ⟨t, ht⟩ := hpre
    have htake : F.take (F.rdropWhile (fun c => c == '0')).length =
        F.rdropWhile (fun c => c == '0') := by
      have h1 : F.take (F.rdropWhile (fun c => c == '0')).length =
          (F.rdropWhile (fun c => c == '0') ++ t).take
            (F.rdropWhile (fun c => c == '0')).length := by rw [ht]
      rw [h1, List.take_left']
      rfl
    have e : I.length + (F.rdropWhile (fun c => c == '0')).length + 1 =
        I.length + ((F.rdropWhile (fun c => c == '0')).length + 1) := by omega
    rw [e, List.take_append, List.take_succ_cons, htake]
    simp

theorem digitChar_ne_point : ∀ d, d < 10 → Nat.digitChar d ≠ '.' := by
  decide

theorem mem_toDigitsCore (b : Nat) (hb : 0 < b) : ∀ (fuel n : Nat) (ds : List Char) (c : Char),
    c ∈ Nat.toDigitsCore b fuel n ds → c ∈ ds ∨ ∃ d, d < b ∧ c = Nat.digitChar d := by
  intro fuel
  induction fuel with
  | zero => intro n ds c h; exact Or.inl (by simpa [Nat.toDigitsCore] using h)
  | succ fuel ih =>
    intro n ds c h
    simp only [Nat.toDigitsCore] at h
    split at h
    · rcases List.mem_cons.1 h with h | h
      · exact Or.inr ⟨_, Nat.mod_lt _ hb, h⟩
      · exact Or.inl h
    · rcases ih _ _ _ h with h | h
      · rcases List.mem_cons.1 h with h | h
        · exact Or.inr ⟨_, Nat.mod_lt _ hb, h⟩
        · exact Or.inl h
      · exact Or.inr h

theorem point_not_mem_toDigits (n : Nat) : '.' ∉ Nat.toDigits 10 n := by
  intro h
  rcases mem_toDigitsCore 10 (by decide) _ _ _ _ h with h | ⟨d, hd, hc⟩
  · exact absurd h (List.not_mem_nil _)
  · exact digitChar_ne_point d hd hc.symm

theorem toDigitsCore_ne_nil (b : Nat) : ∀ (fuel n : Nat) (ds : List Char),
    0 < fuel → Nat.toDigitsCore b fuel n ds ≠ [] := by
  intro fuel
  induction fuel with
  | zero => intro n ds h; exact absurd h (Nat.lt_irrefl 0)
  | succ fuel ih =>
    intro n ds _
    simp only [Nat.toDigitsCore]
    split
    · simp
    · cases fuel with
      | zero => simp [Nat.toDigitsCore]
      | succ f => exact ih _ _ (Nat.succ_pos f)

theorem toDigits_ne_nil (n : Nat) : Nat.toDigits 10 n ≠ [] :=
  toDigitsCore_ne_nil 10 (n + 1) n [] (Nat.succ_pos n)

theorem toDigits_length_le (n e : Nat) (he : 0 < e) (h : n < 10 ^ e) :
    (Nat.toDigits 10 n).length ≤ e :=
  Nat.toDigitsCore_length 10 (by decide) (n + 1) n e h he

theorem padFraction_length (r : Nat) (h : r < 10 ^ 6) : (padFraction r).length = 6 := by
  have := toDigits_length_le r 6 (by decide) h
  simp only [padFraction, List.length_append, List.length_replicate]
  omega

theorem point_not_mem_padFraction (r : Nat) : '.' ∉ padFraction r := by
  intro h
  simp only [padFraction, List.mem_append] at h
  rcases h with h | h
  · exact absurd (List.eq_of_mem_replicate h) (by decide)
  · exact point_not_mem_toDigits r h

theorem roundHalfEven_le (num den : Nat) : roundHalfEven num den ≤ num / den + 1 := by
  unfold roundHalfEven
  simp only
  split
  · omega
  · split
    · omega
    · split <;> omega

theorem split_at_point_unique : ∀ (I I' F F' : List Char), '.' ∉ I → '.' ∉ I' →
    I ++ '.' :: F = I' ++ '.' :: F' → I = I' ∧ F = F' := by
  intro I
  induction I with
  | nil =>
    intro I' F F' _ hI' h
    cases I' with
    | nil => simpa using h
    | cons c cs =>
      simp only [List.nil_append, List.cons_append, List.cons.injEq] at h
      exact absurd (h.1 ▸ List.mem_cons_self _ _) hI'
  | cons a as ih =>
    intro I' F F' hI hI' h
    cases I' with
    | nil =>
      simp only [List.nil_append, List.cons_append, List.cons.injEq] at h
      exact absurd (h.1 ▸ List.mem_cons_self _ _) hI
    | cons c cs =>
      simp only [List.cons_append, List.cons.injEq] at h
      obtain ⟨h1, h2⟩ := ih cs F F' (fun hm => hI (List.mem_cons_of_mem _ hm))
        (fun hm => hI' (List.mem_cons_of_mem _ hm)) h.2
      exact ⟨by rw [h.1, h1], h2⟩

/-- The sign and integer digits of the rendering of a finite double. -/
theorem to_string_fin (negative : Bool) (m k : Nat) :
    to_string (.fin negative m k) =
      ((if negative then ['-'] else []) ++
          Nat.toDigits 10 (roundHalfEven (m * 10 ^ 6) (2 ^ k) / 10 ^ 6)) ++
        '.' :: padFraction (roundHalfEven (m * 10 ^ 6) (2 ^ k) % 10 ^ 6) := by
  simp [to_string]

theorem point_not_mem_integer (negative : Bool) (q : Nat) :
    '.' ∉ (if negative then ['-'] else []) ++ Nat.toDigits 10 q := by
  intro h
  rcases List.mem_append.1 h with h | h
  · cases negative
    · simp at h
    · simp at h
  · exact point_not_mem_toDigits q h

theorem integer_part_bound (m k : Nat) (hfinite : m < 2 ^ 1024 * 2 ^ k) :
    roundHalfEven (m * 10 ^ 6) (2 ^ k) / 10 ^ 6 < 10 ^ 309 := by
  have hk : 0 < 2 ^ k := Nat.two_pow_pos k
  have h1 : m * 10 ^ 6 / 2 ^ k < 2 ^ 1024 * 10 ^ 6 := by
    rw [Nat.div_lt_iff_lt_mul hk]
    calc m * 10 ^ 6 < 2 ^ 1024 * 2 ^ k * 10 ^ 6 :=
          Nat.mul_lt_mul_of_pos_right hfinite (by decide)
      _ = 2 ^ 1024 * 10 ^ 6 * 2 ^ k := by ring
  have h2 := roundHalfEven_le (m * 10 ^ 6) (2 ^ k)
  have h3 : roundHalfEven (m * 10 ^ 6) (2 ^ k) / 10 ^ 6 ≤ 2 ^ 1024 := by
    apply Nat.div_le_of_le_mul
    have hc : (10 : Nat) ^ 6 * 2 ^ 1024 = 2 ^ 1024 * 10 ^ 6 := Nat.mul_comm _ _
    rw [hc]
    exact Nat.le_trans h2 h1
  exact Nat.lt_of_le_of_lt h3 (by norm_num)

theorem to_string_length (negative : Bool) (m k : Nat) (hfinite : m < 2 ^ 1024 * 2 ^ k) :
    (to_string (.fin negative m k)).length < npos := by
  have hq := toDigits_length_le _ 309 (by decide) (integer_part_bound m k hfinite)
  have hF := padFraction_length (roundHalfEven (m * 10 ^ 6) (2 ^ k) % 10 ^ 6)
    (Nat.mod_lt _ (by decide))
  have hs : (if negative then ['-'] else ([] : List Char)).length ≤ 1 := by
    cases negative <;> simp
  rw [to_string_fin]
  simp only [List.length_append, List.length_cons, hF]
  have : npos = 18446744073709551615 := by decide
  omega

theorem unitRaw_ordinal (u : CSS.Unit) : UnitRaw[u.ordinal]? = some (UnitRaw.getD u.ordinal "") := by
  cases u <;> rfl

/-- Printing a magnitude whose rendering is `I ++ '.' :: F`. -/
theorem print_of_rendering (x : Dbl) (u : CSS.Unit) (I F : List Char)
    (hform : to_string x = I ++ '.' :: F) (hI : '.' ∉ I) (hlen : (to_string x).length < npos) :
    UnitValue.print ⟨x, u⟩ =
      some (String.mk (I ++ strippedFraction F) ++ UnitRaw.getD u.ordinal "") := by
  have hstrip := strip_at_point I F hI (by rw [← hform]; exact hlen)
  simp only [UnitValue.print, hform, hstrip, unitRaw_ordinal]

/-- The numeric part of a printed unit value ends neither in the point nor,
when it has a fraction, in a zero. -/
theorem numeric_part_end (I F : List Char) (hI : '.' ∉ I) (hF : '.' ∉ F) :
    (I ++ strippedFraction F).getLast? ≠ some '.' ∧
      ('.' ∈ I ++ strippedFraction F → (I ++ strippedFraction F).getLast? ≠ some '0') := by
  by_cases hall : F.all (fun c => c == '0') = true
  · have hs : strippedFraction F = [] := by simp [strippedFraction, hall]
    rw [hs, List.append_nil]
    constructor
    · intro h
      exact hI (mem_of_getLast? h)
    · intro h; exact absurd h hI
  · have hs : strippedFraction F = '.' :: F.rdropWhile (fun c => c == '0') := by
      simp [strippedFraction, hall]
    have hz : F.rdropWhile (fun c => c == '0') ≠ [] := by
      intro h
      apply hall
      rw [List.all_eq_true]
      exact List.rdropWhile_eq_nil_iff.1 h
    have hlast : (I ++ strippedFraction F).getLast? =
        some ((F.rdropWhile (fun c => c == '0')).getLast hz) := by
      have e : I ++ '.' :: F.rdropWhile (fun c => c == '0') =
          (I ++ ['.']) ++ F.rdropWhile (fun c => c == '0') := by simp
      rw [hs, e, List.getLast?_append_of_ne_nil _ hz]
      exact List.getLast?_eq_getLast _ hz
    rw [hlast]
    have hnot := List.rdropWhile_last_not (fun c => c == '0') F hz
    have hmem : (F.rdropWhile (fun c => c == '0')).getLast hz ∈ F :=
      (List.rdropWhile_prefix _ _).subset (List.getLast_mem hz)
    constructor
    · intro h
      rw [Option.some.injEq] at h
      exact hF (h ▸ hmem)
    · intro _ h
      rw [Option.some.injEq] at h
      apply hnot
      simp [h]

/-- C11. Unit printing: for every magnitude in the range of `double` whose
rendering by `std::to_string` is `I`, a point and the fraction digits `F`, and
every unit tag `u`, there are six fraction digits, the lookup of `u` in
`UnitRaw()` is in bounds, `UnitRaw()` is the table
`["px", "em", "rem", "vw", "vh", "%"]`, and `print()` returns `I`, followed by
the point and `F` without its trailing zeros when `F` is not all zeros (by
nothing when it is), followed by the entry of that table at the ordinal of `u`:
`px` for the tag `px`, `em` for `em`, `rem` for `rem`, `vw` for `vw`, `vh` for
`vh` and `%` for `percent`. The numeric part is not empty and ends neither in
the point nor, when it has a fraction, in a zero. In particular `15.0 px` prints
`15px` and `1.5 em` prints `1.5em`; likewise `1.5 rem`, `2.25 vw`, `0.5 vh` and
`12.5 %` print `1.5rem`, `2.25vw`, `0.5vh` and `12.5%`. -/
theorem unit_print_format (x : Dbl) (u : CSS.Unit) (I F : List Char)
    (hrange : x.inRange = true) (hform : to_string x = I ++ '.' :: F) (hI : '.' ∉ I) :
    F.length = 6 ∧ u.ordinal < UnitRaw.length ∧
      UnitRaw = ["px", "em", "rem", "vw", "vh", "%"] ∧
      UnitValue.print ⟨x, u⟩ =
        some (String.mk (I ++ strippedFraction F) ++
          ["px", "em", "rem", "vw", "vh", "%"].getD u.ordinal "") ∧
      UnitValue.print ⟨x, .px⟩ = some (String.mk (I ++ strippedFraction F) ++ "px") ∧
      UnitValue.print ⟨x, .em⟩ = some (String.mk (I ++ strippedFraction F) ++ "em") ∧
      UnitValue.print ⟨x, .rem⟩ = some (String.mk (I ++ strippedFraction F) ++ "rem") ∧
      UnitValue.print ⟨x, .vw⟩ = some (String.mk (I ++ strippedFraction F) ++ "vw") ∧
      UnitValue.print ⟨x, .vh⟩ = some (String.mk (I ++ strippedFraction F) ++ "vh") ∧
      UnitValue.print ⟨x, .percent⟩ = some (String.mk (I ++ strippedFraction F) ++ "%") ∧
      I ++ strippedFraction F ≠ [] ∧
      (I ++ strippedFraction F).getLast? ≠ some '.' ∧
      ('.' ∈ I ++ strippedFraction F → (I ++ strippedFraction F).getLast? ≠ some '0') ∧
      UnitValue.print ⟨Dbl.ofNat 15, .px⟩ = some "15px" ∧
      UnitValue.print ⟨.fin false 3 1, .em⟩ = some "1.5em" ∧
      UnitValue.print ⟨.fin false 3 1, .rem⟩ = some "1.5rem" ∧
      UnitValue.print ⟨.fin false 9 2, .vw⟩ = some "2.25vw" ∧
      UnitValue.print ⟨.fin false 1 1, .vh⟩ = some "0.5vh" ∧
      UnitValue.print ⟨.fin false 25 1, .percent⟩ = some "12.5%" := by
  cases x with
  | nan =>
    have : '.' ∈ to_string .nan := by rw [hform]; simp
    exact absurd this (by decide)
  | inf s =>
    have : '.' ∈ to_string (.inf s) := by rw [hform]; simp
    cases s <;> exact absurd this (by decide)
  | fin s m k =>
    have hfinite : m < 2 ^ 1024 * 2 ^ k := by
      simp only [Dbl.inRange, decide_eq_true_eq] at hrange
      exact hrange
    have hlen := to_string_length s m k hfinite
    obtain ⟨hIeq, hFeq⟩ := split_at_point_unique _ _ _ _ hI (point_not_mem_integer s _)
      (hform.symm.trans (to_string_fin s m k))
    have hFlen : F.length = 6 := by
      rw [hFeq]; exact padFraction_length _ (Nat.mod_lt _ (by decide))
    have hFpt : '.' ∉ F := by rw [hFeq]; exact point_not_mem_padFraction _
    have hne : I ≠ [] := by
      rw [hIeq]
      intro h
      exact toDigits_ne_nil _ (List.append_eq_nil.1 h).2
    have hend := numeric_part_end I F hI hFpt
    have hprint := fun v : CSS.Unit => print_of_rendering (.fin s m k) v I F hform hI hlen
    refine ⟨hFlen, by cases u <;> decide, rfl, hprint u, hprint .px, hprint .em, hprint .rem,
      hprint .vw, hprint .vh, hprint .percent, ?_, hend.1, hend.2, by decide, by decide,
      by decide, by decide, by decide, by decide⟩
    intro h
    exact hne (List.append_eq_nil.1 h).1

/-- C11, at the magnitude `1.5` (rendered `1.500000`) with the unit `rem`. -/
theorem unit_print_format_witness :
    ("500000".toList).length = 6 ∧ CSS.Unit.rem.ordinal < UnitRaw.length ∧
      UnitRaw = ["px", "em", "rem", "vw", "vh", "%"] ∧
      UnitValue.print ⟨.fin false 3 1, .rem⟩ =
        some (String.mk (['1'] ++ strippedFraction "500000".toList) ++
          ["px", "em", "rem", "vw", "vh", "%"].getD CSS.Unit.rem.ordinal "") ∧
      UnitValue.print ⟨.fin false 3 1, .px⟩ =
        some (String.mk (['1'] ++ strippedFraction "500000".toList) ++ "px") ∧
      UnitValue.print ⟨.fin false 3 1, .em⟩ =
        some (String.mk (['1'] ++ strippedFraction "500000".toList) ++ "em") ∧
      UnitValue.print ⟨.fin false 3 1, .rem⟩ =
        some (String.mk (['1'] ++ strippedFraction "500000".toList) ++ "rem") ∧
      UnitValue.print ⟨.fin false 3 1, .vw⟩ =
        some (String.mk (['1'] ++ strippedFraction "500000".toList) ++ "vw") ∧
      UnitValue.print ⟨.fin false 3 1, .vh⟩ =
        some (String.mk (['1'] ++ strippedFraction "500000".toList) ++ "vh") ∧
      UnitValue.print ⟨.fin false 3 1, .percent⟩ =
        some (String.mk (['1'] ++ strippedFraction "500000".toList) ++ "%") ∧
      ['1'] ++ strippedFraction "500000".toList ≠ [] ∧
      (['1'] ++ strippedFraction "500000".toList).getLast? ≠ some '.' ∧
      ('.' ∈ ['1'] ++ strippedFraction "500000".toList →
        (['1'] ++ strippedFraction "500000".toList).getLast? ≠ some '0') ∧
      UnitValue.print ⟨Dbl.ofNat 15, .px⟩ = some "15px" ∧
      UnitValue.print ⟨.fin false 3 1, .em⟩ = some "1.5em" ∧
      UnitValue.print ⟨.fin false 3 1, .rem⟩ = some "1.5rem" ∧
      UnitValue.print ⟨.fin false 9 2, .vw⟩ = some "2.25vw" ∧
      UnitValue.print ⟨.fin false 1 1, .vh⟩ = some "0.5vh" ∧
      UnitValue.print ⟨.fin false 25 1, .percent⟩ = some "12.5%" :=
  unit_print_format (.fin false 3 1) .rem ['1'] "500000".toList (by norm_num [Dbl.inRange])
    (by decide) (by decide)

theorem roundHalfEven_mul (n d : Nat) (hd : 0 < d) : roundHalfEven (n * d) d = n := by
  unfold roundHalfEven
  simp only [Nat.mul_mod_left, Nat.mul_zero]
  rw [if_pos hd, Nat.mul_div_cancel _ hd]

/-- C19. Integer magnitudes print unchanged: for every magnitude holding a
non-negative integer `n` (in the range of `double`, in any of its
representations `n * 2 ^ k / 2 ^ k`) and every unit tag `u`, `print()` returns
the decimal numeral of `n` followed by the suffix of `u`: no digit of the
integer part is removed and no point is left. So `100 px` prints `100px`,
`15 px` prints `15px`, `10 em` prints `10em` and `0 %` prints `0%`. -/
theorem integer_print (n k : Nat) (u : CSS.Unit) (hrange : n < 2 ^ 1024) :
    UnitValue.print ⟨.fin false (n * 2 ^ k) k, u⟩ =
        some (Nat.repr n ++ UnitRaw.getD u.ordinal "") ∧
      UnitValue.print ⟨Dbl.ofNat 100, .px⟩ = some "100px" ∧
      UnitValue.print ⟨Dbl.ofNat 15, .px⟩ = some "15px" ∧
      UnitValue.print ⟨Dbl.ofNat 10, .em⟩ = some "10em" ∧
      UnitValue.print ⟨Dbl.ofNat 0, .percent⟩ = some "0%" := by
  refine ⟨?_, by decide, by decide, by decide, by decide⟩
  have hk : 0 < 2 ^ k := Nat.two_pow_pos k
  have hscaled : roundHalfEven (n * 2 ^ k * 10 ^ 6) (2 ^ k) = n * 10 ^ 6 := by
    have e : n * 2 ^ k * 10 ^ 6 = n * 10 ^ 6 * 2 ^ k := by ring
    rw [e, roundHalfEven_mul _ _ hk]
  have hform : to_string (.fin false (n * 2 ^ k) k) =
      Nat.toDigits 10 n ++ '.' :: "000000".toList := by
    rw [to_string_fin, hscaled, Nat.mul_div_cancel _ (by decide), Nat.mul_mod_left]
    rfl
  have hlen := to_string_length false (n * 2 ^ k) k
    (Nat.mul_lt_mul_of_pos_right hrange hk)
  rw [print_of_rendering _ u _ _ hform (point_not_mem_toDigits n) hlen]
  have hs : strippedFraction "000000".toList = [] := by decide
  rw [hs, List.append_nil]
  rfl

/-- C19, at the magnitude `100` with the unit `px`. -/
theorem integer_print_witness :
    UnitValue.print ⟨.fin false (100 * 2 ^ 0) 0, .px⟩ =
        some (Nat.repr 100 ++ UnitRaw.getD CSS.Unit.px.ordinal "") ∧
      UnitValue.print ⟨Dbl.ofNat 100, .px⟩ = some "100px" ∧
      UnitValue.print ⟨Dbl.ofNat 15, .px⟩ = some "15px" ∧
      UnitValue.print ⟨Dbl.ofNat 10, .em⟩ = some "10em" ∧
      UnitValue.print ⟨Dbl.ofNat 0, .percent⟩ = some "0%" :=
  integer_print 100 0 .px (by norm_num)

/-! ## Sequences of commands, degenerate boxes, bounds -/

/-- C14, as amended. Paint overwrite: on every canvas (its buffer a vector of
fewer than `2 ^ 64` pixels) that holds `width * height` pixels or, more
generally, reaches to the end of the last row of each of the two boxes, the
loops of `render` for `A` and then for `B`, run between the clamped edges
`min(width, max(0, v))` and `min(height, max(0, v))` of whatever values the
eight conversions yield, complete, and afterwards every pixel in the box of `B`
(so every pixel in both boxes) holds the colour of `B`, every pixel in the box
of `A` only holds the colour of `A`, and every pixel `(x, y)` with `x < width`
in neither box holds its previous value; and whenever `toPx` returns the eight
edges, rendering `A` then `B` completes with that effect on the pixels of the
canvas and leaves width and height as they were. -/
theorem paint_overwrite (add : Dbl → Dbl → Dbl) (c : Canvas) (A B : RectangleCmd)
    (hU : c.pixels.length < U64) :
    (∀ va0 va1 va2 va3 vb0 vb1 vb2 vb3 a0 a1 a2 a3 b0 b1 b2 b3 : Nat,
        a0 = Nat.min c.width (Nat.max 0 va0) → a1 = Nat.min c.height (Nat.max 0 va1) →
        a2 = Nat.min c.width (Nat.max 0 va2) → a3 = Nat.min c.height (Nat.max 0 va3) →
        b0 = Nat.min c.width (Nat.max 0 vb0) → b1 = Nat.min c.height (Nat.max 0 vb1) →
        b2 = Nat.min c.width (Nat.max 0 vb2) → b3 = Nat.min c.height (Nat.max 0 vb3) →
        (c.pixels.length = c.width * c.height ∨
          ((a0 < a2 → a1 < a3 → a2 + (a3 - 1) * c.width ≤ c.pixels.length) ∧
            (b0 < b2 → b1 < b3 → b2 + (b3 - 1) * c.width ≤ c.pixels.length))) →
        ∃ pixelsA pixelsB,
          renderRows c.width A.getColor a0 a2 (a3 - a1) a1 c.pixels = some pixelsA ∧
          renderRows c.width B.getColor b0 b2 (b3 - b1) b1 pixelsA = some pixelsB ∧
          ∀ x y, x < c.width →
            ((b0 ≤ x ∧ x < b2 ∧ b1 ≤ y ∧ y < b3) →
              pixelsB[x + y * c.width]? = some B.getColor) ∧
            (¬ (b0 ≤ x ∧ x < b2 ∧ b1 ≤ y ∧ y < b3) → (a0 ≤ x ∧ x < a2 ∧ a1 ≤ y ∧ y < a3) →
              pixelsB[x + y * c.width]? = some A.getColor) ∧
            (¬ (b0 ≤ x ∧ x < b2 ∧ b1 ≤ y ∧ y < b3) → ¬ (a0 ≤ x ∧ x < a2 ∧ a1 ≤ y ∧ y < a3) →
              pixelsB[x + y * c.width]? = c.pixels[x + y * c.width]?)) ∧
      (∀ a0 a1 a2 a3 b0 b1 b2 b3 : Nat,
        toPx A.getRectangle.origin.x 0 c.width = some a0 →
        toPx A.getRectangle.origin.y 0 c.height = some a1 →
        toPx (add A.getRectangle.origin.x A.getRectangle.width) 0 c.width = some a2 →
        toPx (add A.getRectangle.origin.y A.getRectangle.height) 0 c.height = some a3 →
        toPx B.getRectangle.origin.x 0 c.width = some b0 →
        toPx B.getRectangle.origin.y 0 c.height = some b1 →
        toPx (add B.getRectangle.origin.x B.getRectangle.width) 0 c.width = some b2 →
        toPx (add B.getRectangle.origin.y B.getRectangle.height) 0 c.height = some b3 →
        (c.pixels.length = c.width * c.height ∨
          ((a0 < a2 → a1 < a3 → a2 + (a3 - 1) * c.width ≤ c.pixels.length) ∧
            (b0 < b2 → b1 < b3 → b2 + (b3 - 1) * c.width ≤ c.pixels.length))) →
        ∃ c', renderAll add c [A, B] = some c' ∧ c'.width = c.width ∧ c'.height = c.height ∧
          ∀ x y, x < c.width →
            ((b0 ≤ x ∧ x < b2 ∧ b1 ≤ y ∧ y < b3) → c'.pixelAt x y = some B.getColor) ∧
            (¬ (b0 ≤ x ∧ x < b2 ∧ b1 ≤ y ∧ y < b3) → (a0 ≤ x ∧ x < a2 ∧ a1 ≤ y ∧ y < a3) →
              c'.pixelAt x y = some A.getColor) ∧
            (¬ (b0 ≤ x ∧ x < b2 ∧ b1 ≤ y ∧ y < b3) → ¬ (a0 ≤ x ∧ x < a2 ∧ a1 ≤ y ∧ y < a3) →
              c'.pixelAt x y = c.pixelAt x y)) := by
  refine ⟨?_, ?_⟩
  · intro va0 va1 va2 va3 vb0 vb1 vb2 vb3 a0 a1 a2 a3 b0 b1 b2 b3 _ _ ea2 ea3 _ _ eb2 eb3 hfit
    have ba2 : a2 ≤ c.width := ea2 ▸ Nat.min_le_left _ _
    have ba3 : a3 ≤ c.height := ea3 ▸ Nat.min_le_left _ _
    have bb2 : b2 ≤ c.width := eb2 ▸ Nat.min_le_left _ _
    have bb3 : b3 ≤ c.height := eb3 ▸ Nat.min_le_left _ _
    obtain ⟨pA, hrA, hlA, hpA⟩ := renderRows_box c.width A.getColor a0 a1 a2 a3 c.pixels ba2 hU
      (box_fits c.width c.height a0 a1 a2 a3 _ ba2 ba3 (hfit.imp_right And.left))
    have fB := box_fits c.width c.height b0 b1 b2 b3 _ bb2 bb3 (hfit.imp_right And.right)
    obtain ⟨pB, hrB, _, hpB⟩ := renderRows_box c.width B.getColor b0 b1 b2 b3 pA bb2
      (by rw [hlA]; exact hU) (by rw [hlA]; exact fB)
    refine ⟨pA, pB, hrA, hrB, fun x y hx => ⟨?_, ?_, ?_⟩⟩
    · intro hb; rw [hpB x y hx, if_pos hb]
    · intro hb ha; rw [hpB x y hx, if_neg hb, hpA x y hx, if_pos ha]
    · intro hb ha; rw [hpB x y hx, if_neg hb, hpA x y hx, if_neg ha]
  · intro a0 a1 a2 a3 b0 b1 b2 b3 hA0 hA1 hA2 hA3 hB0 hB1 hB2 hB3 hfit
    obtain ⟨cA, hrA, hwA, hhA, hlA, hpA⟩ := render_box add c A a0 a1 a2 a3 hU hA0 hA1 hA2 hA3
      (hfit.imp_right And.left)
    obtain ⟨cB, hrB, hwB, hhB, _, hpB⟩ := render_box add cA B b0 b1 b2 b3
      (by rw [hlA]; exact hU)
      (by rw [hwA]; exact hB0) (by rw [hhA]; exact hB1) (by rw [hwA]; exact hB2)
      (by rw [hhA]; exact hB3)
      (by rw [hlA, hwA, hhA]; exact hfit.imp_right And.right)
    refine ⟨cB, ?_, hwB.trans hwA, hhB.trans hhA, ?_⟩
    · simp only [renderAll, hrA, hrB]
    · intro x y hx
      have h2 := hpB x y (by rw [hwA]; exact hx)
      have h1 := hpA x y hx
      refine ⟨?_, ?_, ?_⟩
      · intro hb; rw [h2, if_pos hb]
      · intro hb ha; rw [h2, if_neg hb, h1, if_pos ha]
      · intro hb ha; rw [h2, if_neg hb, h1, if_neg ha]

/-- C14, at the boxes `[0, 2) x [0, 2)` then `[1, 3) x [1, 3)` on a blank 4x4
canvas. -/
theorem paint_overwrite_witness :
    ∃ c', renderAll Dbl.addInt (Canvas.blank 4 4)
        [⟨⟨⟨Dbl.ofNat 0, Dbl.ofNat 0⟩, Dbl.ofNat 2, Dbl.ofNat 2⟩, ⟨255, 0, 0, 255⟩⟩,
          ⟨⟨⟨Dbl.ofNat 1, Dbl.ofNat 1⟩, Dbl.ofNat 2, Dbl.ofNat 2⟩, ⟨0, 0, 255, 255⟩⟩] = some c' ∧
      c'.pixelAt 1 1 = some ⟨0, 0, 255, 255⟩ ∧ c'.pixelAt 0 0 = some ⟨255, 0, 0, 255⟩ ∧
      c'.pixelAt 3 3 = (Canvas.blank 4 4).pixelAt 3 3 :=
  match (paint_overwrite Dbl.addInt (Canvas.blank 4 4)
      ⟨⟨⟨Dbl.ofNat 0, Dbl.ofNat 0⟩, Dbl.ofNat 2, Dbl.ofNat 2⟩, ⟨255, 0, 0, 255⟩⟩
      ⟨⟨⟨Dbl.ofNat 1, Dbl.ofNat 1⟩, Dbl.ofNat 2, Dbl.ofNat 2⟩, ⟨0, 0, 255, 255⟩⟩
      (by decide)).2 0 0 2 2 1 1 3 3 (by decide) (by decide) (by decide) (by decide)
      (by decide) (by decide) (by decide) (by decide) (Or.inl (by decide)) with
  | ⟨c', hrun, _, _, hpix⟩ =>
    ⟨c', hrun, (hpix 1 1 (by decide)).1 (by decide),
      (hpix 0 0 (by decide)).2.1 (by decide) (by decide),
      (hpix 3 3 (by decide)).2.2 (by decide) (by decide)⟩

/-- C14 as stated fails. On `Canvas(2 ^ 32, 2 ^ 32)`, whose buffer is empty, the
commands with the clamped boxes `[0, 2) x [0, 2)` and `[1, 3) x [1, 3)` cannot
be rendered: the first write is out of bounds, so there is no canvas afterwards
on which the pixel `(1, 1)` of both boxes holds the colour of the second command
or the pixel `(0, 0)` that of the first. On a 4x4 canvas, rendering after a
command whose origin is `(-1, -1)` has no result either, the conversion of `-1`
being undefined. -/
theorem paint_overwrite_overflow :
    toPx (Dbl.ofNat 0) 0 4294967296 = some 0 ∧
      toPx (Dbl.addInt (Dbl.ofNat 0) (Dbl.ofNat 2)) 0 4294967296 = some 2 ∧
      toPx (Dbl.ofNat 1) 0 4294967296 = some 1 ∧
      toPx (Dbl.addInt (Dbl.ofNat 1) (Dbl.ofNat 2)) 0 4294967296 = some 3 ∧
      renderAll Dbl.addInt (Canvas.blank 4294967296 4294967296)
        [⟨⟨⟨Dbl.ofNat 0, Dbl.ofNat 0⟩, Dbl.ofNat 2, Dbl.ofNat 2⟩, ⟨255, 0, 0, 255⟩⟩,
          ⟨⟨⟨Dbl.ofNat 1, Dbl.ofNat 1⟩, Dbl.ofNat 2, Dbl.ofNat 2⟩, ⟨0, 0, 255, 255⟩⟩] = none ∧
      (¬ ∃ c', renderAll Dbl.addInt (Canvas.blank 4294967296 4294967296)
          [⟨⟨⟨Dbl.ofNat 0, Dbl.ofNat 0⟩, Dbl.ofNat 2, Dbl.ofNat 2⟩, ⟨255, 0, 0, 255⟩⟩,
            ⟨⟨⟨Dbl.ofNat 1, Dbl.ofNat 1⟩, Dbl.ofNat 2, Dbl.ofNat 2⟩, ⟨0, 0, 255, 255⟩⟩] =
            some c' ∧
        c'.pixelAt 1 1 = some ⟨0, 0, 255, 255⟩ ∧ c'.pixelAt 0 0 = some ⟨255, 0, 0, 255⟩) ∧
      renderAll Dbl.addInt (Canvas.blank 4 4)
        [⟨⟨⟨Dbl.negOfNat 1, Dbl.negOfNat 1⟩, Dbl.ofNat 3, Dbl.ofNat 3⟩, ⟨255, 0, 0, 255⟩⟩,
          ⟨⟨⟨Dbl.ofNat 1, Dbl.ofNat 1⟩, Dbl.ofNat 2, Dbl.ofNat 2⟩, ⟨0, 0, 255, 255⟩⟩] = none := by
  have h : renderAll Dbl.addInt (Canvas.blank 4294967296 4294967296)
      [⟨⟨⟨Dbl.ofNat 0, Dbl.ofNat 0⟩, Dbl.ofNat 2, Dbl.ofNat 2⟩, ⟨255, 0, 0, 255⟩⟩,
        ⟨⟨⟨Dbl.ofNat 1, Dbl.ofNat 1⟩, Dbl.ofNat 2, Dbl.ofNat 2⟩, ⟨0, 0, 255, 255⟩⟩] = none := by
    decide
  refine ⟨by decide, by decide, by decide, by decide, h, ?_, by decide⟩
  rintro ⟨c', hc, _⟩
  rw [h] at hc
  exact Option.noConfusion hc

/-- C20. No out-of-bounds writes: on a canvas whose buffer holds
`width * height` pixels, whatever values `v0, v1, v2, v3` the four conversions
of a command's edges yield, every index `x + y * width` the loops reach between
the clamped edges is computed without wrap-around and lies below
`width * height`, and the loops complete with a buffer of the same length;
whenever `toPx` returns the four edges, `x1` is at most `width`, `y1` at most
`height`, and `render` completes with a buffer of the same length. -/
theorem no_out_of_bounds_writes (add : Dbl → Dbl → Dbl) (c : Canvas) (cmd : RectangleCmd)
    (hinv : c.pixels.length = c.width * c.height) (hU : c.pixels.length < U64) :
    (∀ v0 v1 v2 v3 x y : Nat,
        Nat.min c.width (Nat.max 0 v0) ≤ x → x < Nat.min c.width (Nat.max 0 v2) →
        Nat.min c.height (Nat.max 0 v1) ≤ y → y < Nat.min c.height (Nat.max 0 v3) →
        (x + y * c.width) % U64 = x + y * c.width ∧ x + y * c.width < c.width * c.height) ∧
      (∀ v0 v1 v2 v3 : Nat, ∃ pixels',
        renderRows c.width cmd.getColor (Nat.min c.width (Nat.max 0 v0))
            (Nat.min c.width (Nat.max 0 v2))
            (Nat.min c.height (Nat.max 0 v3) - Nat.min c.height (Nat.max 0 v1))
            (Nat.min c.height (Nat.max 0 v1)) c.pixels = some pixels' ∧
          pixels'.length = c.pixels.length) ∧
      (∀ x0 y0 x1 y1 : Nat,
        toPx cmd.getRectangle.origin.x 0 c.width = some x0 →
        toPx cmd.getRectangle.origin.y 0 c.height = some y0 →
        toPx (add cmd.getRectangle.origin.x cmd.getRectangle.width) 0 c.width = some x1 →
        toPx (add cmd.getRectangle.origin.y cmd.getRectangle.height) 0 c.height = some y1 →
        x1 ≤ c.width ∧ y1 ≤ c.height ∧
          ∃ c', render add c cmd = some c' ∧ c'.pixels.length = c.pixels.length) := by
  refine ⟨?_, ?_, ?_⟩
  · intro v0 v1 v2 v3 x y _ hx _ hy
    have hxw : x < c.width := Nat.lt_of_lt_of_le hx (Nat.min_le_left _ _)
    have hyh : y < c.height := Nat.lt_of_lt_of_le hy (Nat.min_le_left _ _)
    have hlt := index_lt_size c.width c.height x y hxw hyh
    exact ⟨Nat.mod_eq_of_lt (by omega), hlt⟩
  · intro v0 v1 v2 v3
    have b1 : Nat.min c.height (Nat.max 0 v1) ≤ c.height := Nat.min_le_left _ _
    have b3 : Nat.min c.height (Nat.max 0 v3) ≤ c.height := Nat.min_le_left _ _
    obtain ⟨px', hrun, hlen, _⟩ := renderRows_spec c.width c.height cmd.getColor
      (Nat.min c.width (Nat.max 0 v0)) (Nat.min c.width (Nat.max 0 v2))
      (Nat.min_le_left _ _) (Nat.min_le_left _ _)
      (Nat.min c.height (Nat.max 0 v3) - Nat.min c.height (Nat.max 0 v1))
      (Nat.min c.height (Nat.max 0 v1)) c.pixels hinv (by omega) (by omega)
    exact ⟨px', hrun, hlen⟩
  · intro x0 y0 x1 y1 hx0 hy0 hx1 hy1
    have bx0 := toPx_le_max hx0
    have by0 := toPx_le_max hy0
    have bx1 := toPx_le_max hx1
    have by1 := toPx_le_max hy1
    obtain ⟨px', hrun, hlen, _⟩ := renderRows_spec c.width c.height cmd.getColor x0 x1 bx0 bx1
      (y1 - y0) y0 c.pixels hinv (by omega) (by omega)
    refine ⟨bx1, by1, { c with pixels := px' }, ?_, hlen⟩
    simp only [render, hx0, hy0, hx1, hy1, hrun]

/-- C20, at a blank 4x4 canvas and the rectangle with origin `(2, 2)` and size
`(10, 10)`, which reaches beyond the right and bottom edges. -/
theorem no_out_of_bounds_writes_witness :
    ∃ c', render Dbl.addInt (Canvas.blank 4 4)
        ⟨⟨⟨Dbl.ofNat 2, Dbl.ofNat 2⟩, Dbl.ofNat 10, Dbl.ofNat 10⟩, ⟨1, 2, 3, 4⟩⟩ = some c' ∧
      c'.pixels.length = (Canvas.blank 4 4).pixels.length :=
  ((no_out_of_bounds_writes Dbl.addInt (Canvas.blank 4 4)
      ⟨⟨⟨Dbl.ofNat 2, Dbl.ofNat 2⟩, Dbl.ofNat 10, Dbl.ofNat 10⟩, ⟨1, 2, 3, 4⟩⟩
      (by decide) (by decide)).2.2 2 2 4 4 (by decide) (by decide) (by decide) (by decide)).2.2

/-- C16, as amended. Blank canvas: for every width `w` and height `h` whose
product is below `2 ^ 64`, `Canvas(w, h)` has width `w`, height `h` and a pixel
buffer of exactly `w * h` pixels, every one of which is `(255, 255, 255, 0)`. -/
theorem blank_canvas (w h : Nat) (hU : w * h < U64) :
    (Canvas.blank w h).width = w ∧ (Canvas.blank w h).height = h ∧
      (Canvas.blank w h).pixels.length = w * h ∧
      ∀ p ∈ (Canvas.blank w h).pixels, p = ColorValue.mk 255 255 255 0 := by
  refine ⟨rfl, rfl, ?_, ?_⟩
  · simp [Canvas.blank, Nat.mod_eq_of_lt hU]
  · intro p hp
    simp only [Canvas.blank] at hp
    exact List.eq_of_mem_replicate hp

/-- C16, at width and height `4`. -/
theorem blank_canvas_witness :
    (Canvas.blank 4 4).width = 4 ∧ (Canvas.blank 4 4).height = 4 ∧
      (Canvas.blank 4 4).pixels.length = 4 * 4 ∧
      ∀ p ∈ (Canvas.blank 4 4).pixels, p = ColorValue.mk 255 255 255 0 :=
  blank_canvas 4 4 (by decide)

/-- C16 as stated fails: `Canvas(2 ^ 32, 2 ^ 32)` has width and height
`2 ^ 32`, while the `uint64_t` product `width * height` wraps to `0` and the
buffer is empty instead of holding `2 ^ 64` pixels. -/
theorem blank_canvas_overflow :
    (Canvas.blank 4294967296 4294967296).width = 4294967296 ∧
      (Canvas.blank 4294967296 4294967296).height = 4294967296 ∧
      (Canvas.blank 4294967296 4294967296).pixels = [] ∧
      ¬ ((Canvas.blank 4294967296 4294967296).pixels.length = 4294967296 * 4294967296) := by
  decide

/-! ## More on the cascade -/

theorem Style.Matched.le_of_specificity_lt (d d' : Declaration) (a b : Specificity) (i j : Nat)
    (h : Specificity.lt a b = true) : (Matched.mk d a i).le (Matched.mk d' b j) = true := by
  simp [Matched.le, h]

/-- Two rules in either order: the rule holding a matching selector whose
specificity exceeds that of every matching selector of the other rule decides
the value. -/
theorem cascade_two_rules (node : Node) (p : String) (Ra Rb : Rule) (sa : Selector) (v : Value)
    (helem : node.isElement = true) (hsa : sa ∈ Ra.selectors)
    (hma : selectorMatches sa node = true)
    (hlt : ∀ sb ∈ Rb.selectors, selectorMatches sb node = true →
      Specificity.lt sb.specificity sa.specificity = true)
    (hd : declared Ra p = some v) :
    (resolve [Ra, Rb] node).value p = some v ∧ (resolve [Rb, Ra] node).value p = some v := by
  have key : ∀ i, ∃ s ∈ Ra.selectors, selectorMatches s node = true ∧
      (∀ s' ∈ Ra.selectors, selectorMatches s' node = true → ∀ d : Declaration,
        (Matched.mk d s'.specificity i).le (Matched.mk d s.specificity i) = true) ∧
      (∀ sb ∈ Rb.selectors, selectorMatches sb node = true → ∀ (d : Declaration) (j : Nat),
        (Matched.mk d sb.specificity j).le (Matched.mk d s.specificity i) = true) := by
    intro i
    obtain ⟨s, hs, hsm, hmax⟩ :=
      exists_max_matching node ⟨"", .text ⟨""⟩⟩ i Ra.selectors ⟨sa, hsa, hma⟩
    refine ⟨s, hs, hsm, ?_, ?_⟩
    · intro s' hs' hs'm d
      have := hmax s' hs' hs'm
      rw [Matched.le_iff] at this ⊢
      exact this
    · intro sb hsb hsbm d j
      have h1 := hmax sa hsa hma
      have h2 := Matched.le_of_specificity_lt ⟨"", .text ⟨""⟩⟩ ⟨"", .text ⟨""⟩⟩
        sb.specificity sa.specificity i i (hlt sb hsb hsbm)
      have h3 := Matched.le_trans h2 h1
      have h4 : ¬ ((Matched.mk ⟨"", .text ⟨""⟩⟩ sa.specificity i).le
          (Matched.mk ⟨"", .text ⟨""⟩⟩ sb.specificity i) = true) := by
        have := hlt sb hsb hsbm
        simp only [Specificity.lt, Bool.or_eq_true, Bool.and_eq_true, decide_eq_true_eq] at this
        rw [Matched.le_iff]
        simp only
        omega
      have h5 : ¬ ((Matched.mk ⟨"", .text ⟨""⟩⟩ s.specificity i).le
          (Matched.mk ⟨"", .text ⟨""⟩⟩ sb.specificity i) = true) := fun h =>
        h4 (Matched.le_trans h1 h)
      rw [Matched.le_iff] at h3 h5 ⊢
      simp only at h3 h5 ⊢
      omega
  constructor
  · obtain ⟨s, hs, hsm, hmaxa, hmaxb⟩ := key 0
    refine cascade_winner [Ra, Rb] node p 0 Ra s v helem rfl hs hsm hd ?_
    intro j r' s' d hj hs' hs'm _ _
    match j, hj with
    | 0, hj =>
      have : r' = Ra := by simpa using hj.symm
      subst this
      exact hmaxa s' hs' hs'm d
    | 1, hj =>
      have : r' = Rb := by simpa using hj.symm
      subst this
      exact hmaxb s' hs' hs'm d 1
    | j + 2, hj => simp at hj
  · obtain ⟨s, hs, hsm, hmaxa, hmaxb⟩ := key 1
    refine cascade_winner [Rb, Ra] node p 1 Ra s v helem rfl hs hsm hd ?_
    intro j r' s' d hj hs' hs'm _ _
    match j, hj with
    | 0, hj =>
      have : r' = Rb := by simpa using hj.symm
      subst this
      exact hmaxb s' hs' hs'm d 0
    | 1, hj =>
      have : r' = Ra := by simpa using hj.symm
      subst this
      exact hmaxa s' hs' hs'm d
    | j + 2, hj => simp at hj

theorem specificity_lt_of_more_classes (a b : Selector) (hid : a.id = "" ↔ b.id = "")
    (hk : b.klass.length < a.klass.length) :
    Specificity.lt b.specificity a.specificity = true := by
  by_cases ha : a.id = ""
  · have hb : b.id = "" := hid.1 ha
    simp [Specificity.lt, Selector.specificity, isEmpty_iff_eq_empty, ha, hb, hk]
  · have hb : ¬ b.id = "" := fun h => ha (hid.2 h)
    simp [Specificity.lt, Selector.specificity, isEmpty_iff_eq_empty, ha, hb, hk]

/-- C17. Class count outranks tag presence: for selectors `a` and `b` whose ids
are both empty or both non-empty, `a` having strictly more classes than `b`
makes the specificity of `a` lexicographically greater than that of `b`,
whatever their tags; so a rule matching through `a` decides the value of a
property against a rule whose matching selectors are all such `b`, in either
source order. The style sheet `#id.c1{font-size:1px;} html#id{font-size:10px;}`
resolves `font-size` to `1px` on `<html id="id" class="c1 c2">`. -/
theorem class_count_outranks_tag :
    (∀ a b : Selector, (a.id = "" ↔ b.id = "") → b.klass.length < a.klass.length →
      Specificity.lt b.specificity a.specificity = true ∧
        Specificity.lt a.specificity b.specificity = false) ∧
    (∀ (node : Node) (p : String) (Ra Rb : Rule) (sa : Selector) (v : Value),
      node.isElement = true → sa ∈ Ra.selectors → selectorMatches sa node = true →
      (∀ sb ∈ Rb.selectors, selectorMatches sb node = true →
        (sa.id = "" ↔ sb.id = "") ∧ sb.klass.length < sa.klass.length) →
      declared Ra p = some v →
      (resolve [Ra, Rb] node).value p = some v ∧ (resolve [Rb, Ra] node).value p = some v) ∧
    ((resolve
        [⟨[⟨"", "id", ["c1"]⟩], [⟨"font-size", .unit ⟨Dbl.ofNat 1, .px⟩⟩]⟩,
          ⟨[⟨"html", "id", []⟩], [⟨"font-size", .unit ⟨Dbl.ofNat 10, .px⟩⟩]⟩]
        (.element "html" "id" ["c1", "c2"] [] [])).value "font-size").bind Value.print =
      some "1px" := by
  refine ⟨?_, ?_, by decide⟩
  · intro a b hid hk
    refine ⟨specificity_lt_of_more_classes a b hid hk, ?_⟩
    have := specificity_lt_of_more_classes a b hid hk
    simp only [Specificity.lt, Bool.or_eq_true, Bool.and_eq_true, decide_eq_true_eq] at this
    rw [Bool.eq_false_iff]
    simp only [Specificity.lt, ne_eq, Bool.or_eq_true, Bool.and_eq_true, decide_eq_true_eq]
    omega
  · intro node p Ra Rb sa v helem hsa hma hcmp hd
    exact cascade_two_rules node p Ra Rb sa v helem hsa hma
      (fun sb hsb hsbm =>
        specificity_lt_of_more_classes sa sb (hcmp sb hsb hsbm).1 (hcmp sb hsb hsbm).2) hd

theorem declared_of_split (r : Rule) (p : String) (D1 D3 : List Declaration) (d2 : Declaration)
    (hsplit : r.declarations = D1 ++ d2 :: D3) (h2 : d2.name = p)
    (h3 : ∀ d ∈ D3, d.name ≠ p) : declared r p = some d2.value := by
  have hD3 : D3.filter (fun d => decide (d.name = p)) = [] := by
    rw [List.filter_eq_nil_iff]
    intro d hd
    simpa using h3 d hd
  simp [declared, hsplit, List.filter_append, List.filter_cons, h2, hD3]

/-- C18. Duplicate declarations inside one rule: when a rule matching the
element node declares the name `p` twice, by `d1` and later by `d2` with no
declaration of `p` after `d2`, and no other matching rule of the style sheet
declares `p`, the node's value of `p` is the value of `d2`, the declaration
written later. -/
theorem duplicate_declarations_later_wins (css : StyleSheet) (node : Node) (p : String)
    (i : Nat) (r : Rule) (D1 D2 D3 : List Declaration) (d1 d2 : Declaration)
    (helem : node.isElement = true) (hr : css[i]? = some r)
    (hm : ruleMatches r node = true)
    (hsplit : r.declarations = D1 ++ d1 :: (D2 ++ d2 :: D3))
    (_h1 : d1.name = p) (h2 : d2.name = p) (h3 : ∀ d ∈ D3, d.name ≠ p)
    (hother : ∀ (j : Nat) r', css[j]? = some r' → j ≠ i → ruleMatches r' node = true →
      ∀ d ∈ r'.declarations, d.name ≠ p) :
    (resolve css node).value p = some d2.value := by
  have hd : declared r p = some d2.value :=
    declared_of_split r p (D1 ++ d1 :: D2) D3 d2 (by rw [hsplit]; simp) h2 h3
  obtain ⟨s, hs, hsm, hmax⟩ := exists_max_matching node ⟨"", .text ⟨""⟩⟩ i r.selectors
    ((ruleMatches_iff r node).1 hm)
  refine cascade_winner css node p i r s d2.value helem hr hs hsm hd ?_
  intro j r' s' d hj hs' hs'm hdmem hdp
  by_cases hji : j = i
  · subst hji
    have : r' = r := by rw [hr] at hj; exact (Option.some.inj hj).symm
    subst this
    have := hmax s' hs' hs'm
    rw [Matched.le_iff] at this ⊢
    exact this
  · exact absurd hdp
      (hother j r' hj hji ((ruleMatches_iff r' node).2 ⟨s', hs', hs'm⟩) d hdmem)

/-- C18, at the rule `html {font-size:15px;color:red;color:#e5e5e5;}` on
`<html></html>`: `color` resolves to `rgba(229, 229, 229, 255)`. -/
theorem duplicate_declarations_later_wins_witness :
    (resolve
        [⟨[⟨"html", "", []⟩], [⟨"font-size", .unit ⟨Dbl.ofNat 15, .px⟩⟩, ⟨"color", .text ⟨"red"⟩⟩,
          ⟨"color", .color ⟨229, 229, 229, 255⟩⟩]⟩]
        (.element "html" "" [] [] [])).value "color" = some (.color ⟨229, 229, 229, 255⟩) ∧
      Value.print (.color ⟨229, 229, 229, 255⟩) = some "rgba(229, 229, 229, 255)" :=
  ⟨duplicate_declarations_later_wins
    [⟨[⟨"html", "", []⟩], [⟨"font-size", .unit ⟨Dbl.ofNat 15, .px⟩⟩, ⟨"color", .text ⟨"red"⟩⟩,
      ⟨"color", .color ⟨229, 229, 229, 255⟩⟩]⟩]
    (.element "html" "" [] [] []) "color" 0
    ⟨[⟨"html", "", []⟩], [⟨"font-size", .unit ⟨Dbl.ofNat 15, .px⟩⟩, ⟨"color", .text ⟨"red"⟩⟩,
      ⟨"color", .color ⟨229, 229, 229, 255⟩⟩]⟩
    [⟨"font-size", .unit ⟨Dbl.ofNat 15, .px⟩⟩] [] [] ⟨"color", .text ⟨"red"⟩⟩
    ⟨"color", .color ⟨229, 229, 229, 255⟩⟩
    rfl rfl (by decide) rfl rfl rfl (by simp)
    (by
      intro j r' hj hji
      match j, hj with
      | 0, _ => exact absurd rfl hji
      | j + 1, hj => simp at hj), by decide⟩

/-- The constructor from a frame and a queue of two commands renders the first
command, then the second, on the blank canvas of the frame size. -/
theorem ofFrame_two (add : Dbl → Dbl → Dbl) (frame : Layout.Rectangle) (w h : Nat)
    (A B : RectangleCmd) (hw : frame.width.toU64 = some w) (hh : frame.height.toU64 = some h) :
    Canvas.ofFrame add frame [A, B] = renderAll add (Canvas.blank w h) [A, B] := by
  simp only [Canvas.ofFrame, hw, hh]
